import Mathlib

/-!
# ConversorNumerosRomanos: Roman ↔ Arabic conversion

A shallow embedding of the two converters of `src/server.js` (`romanToArabic`, lines 40-90,
and `arabicToRoman`, lines 98-144; `src/api/r2a.js`, `src/api/a2r.js` and `src/api/convert.js`
carry textually identical copies) and theorems about them.

JavaScript strings are modelled as `List Char`, thrown errors as `Except.error` of an
`ErrorKind`, and the regular expressions of the source as values of a small regex type `Re`
run by a backtracking matcher.
-/

namespace ConversorNumerosRomanos

/-! ## Values and errors -/

/-- A Number that is not given as an integer, by what `String()` prints for it:
* `nan`                           : `NaN`
* `infinity negative`             : `Infinity`, `-Infinity`
* `finite negative digits point`  : the finite non-zero Number whose shortest decimal
  representation has the significant digits `digits` and the decimal point after `point` of
  them (the `s` and `n` of Number::toString), with a minus sign when `negative`: 1.5 is
  `finite false 15 1`, 0.001 is `finite false 1 (-2)`, 1e21 is `finite false 1 22`. -/
inductive JsNumber where
  | nan
  | infinity (negative : Bool)
  | finite (negative : Bool) (digits : Nat) (point : Int)
  deriving DecidableEq, Repr

/-- The values a converter can receive. `num n` is the integer-valued Number whose shortest
decimal representation is the integer `n` (the Number `n` itself up to `2^53`; zero is
`num 0`); `number x` is a Number given by its printed form, which covers the non-integer
Numbers, `NaN` and the infinities; `obj` stands for an array or object and carries the text
`String()` gives for it (an object on which `String()` throws is outside the model). -/
inductive JsValue where
  | undefined
  | null
  | bool (b : Bool)
  | num (n : Int)
  | number (x : JsNumber)
  | str (s : List Char)
  | obj (text : List Char)
  deriving DecidableEq, Repr

/-- The error kinds of the converters, one per `throw new Error(...)` of the source:
* `InvalidInput`      : 'Debe proporcionar un número romano válido'
* `InvalidCharacters` : 'El número romano contiene caracteres inválidos'
* `InvalidGrammar`    : 'El número romano tiene un formato inválido (orden o combinación incorrecta)'
* `RomanOutOfRange`   : 'El número romano debe estar entre I (1) y MMMCMXCIX (3999)'
* `InvalidFormat`     : 'Debe proporcionar un número válido (solo dígitos)'
* `NotANumber`        : 'Debe proporcionar un número válido'
* `OutOfRange`        : 'El número debe estar entre 1 y 3999' -/
inductive ErrorKind where
  | InvalidInput
  | InvalidCharacters
  | InvalidGrammar
  | RomanOutOfRange
  | InvalidFormat
  | NotANumber
  | OutOfRange
  deriving DecidableEq, Repr

deriving instance DecidableEq for Except

/-! ## Runtime string functions used by the source -/

/-- The characters `String.prototype.trim` removes: WhiteSpace and LineTerminator code points. -/
def isJsWhitespace (c : Char) : Bool :=
  let n := c.toNat
  n == 0x09 || n == 0x0A || n == 0x0B || n == 0x0C || n == 0x0D || n == 0x20 || n == 0xA0 ||
  n == 0x1680 || (0x2000 ≤ n && n ≤ 0x200A) || n == 0x2028 || n == 0x2029 || n == 0x202F ||
  n == 0x205F || n == 0x3000 || n == 0xFEFF

/-- The method `String.prototype.trim`: drops leading and trailing whitespace. -/
def trim (s : List Char) : List Char :=
  ((s.dropWhile isJsWhitespace).reverse.dropWhile isJsWhitespace).reverse

/-- Upper-casing of one character. Exact on ASCII and on every character whose upper-case form
contains an ASCII letter (dotless i, long s, sharp s and the Latin ligatures and composites);
any other character is left as it is, its real upper-case form being non-ASCII as well. -/
def toUpperChar (c : Char) : List Char :=
  let n := c.toNat
  if 0x61 ≤ n ∧ n ≤ 0x7A then [Char.ofNat (n - 32)]
  else if n = 0x131 then ['I']
  else if n = 0x17F then ['S']
  else if n = 0xDF then ['S', 'S']
  else if n = 0x149 then [Char.ofNat 0x2BC, 'N']
  else if n = 0x1F0 then ['J', Char.ofNat 0x30C]
  else if n = 0x1E96 then ['H', Char.ofNat 0x331]
  else if n = 0x1E97 then ['T', Char.ofNat 0x308]
  else if n = 0x1E98 then ['W', Char.ofNat 0x30A]
  else if n = 0x1E99 then ['Y', Char.ofNat 0x30A]
  else if n = 0x1E9A then ['A', Char.ofNat 0x2BE]
  else if n = 0xFB00 then ['F', 'F']
  else if n = 0xFB01 then ['F', 'I']
  else if n = 0xFB02 then ['F', 'L']
  else if n = 0xFB03 then ['F', 'F', 'I']
  else if n = 0xFB04 then ['F', 'F', 'L']
  else if n = 0xFB05 then ['S', 'T']
  else if n = 0xFB06 then ['S', 'T']
  else [c]

/-- The method `String.prototype.toUpperCase`. -/
def toUpperCase (s : List Char) : List Char :=
  s.flatMap toUpperChar

/-- Decimal text of a natural number, most significant digit first. -/
def natToString (n : Nat) : List Char :=
  Nat.toDigits 10 n

/-- The exponent part of the exponent form of Number::toString: `e`, the sign and the
decimal digits of the exponent. -/
def exponentPart (e : Int) : List Char :=
  'e' :: (if e < 0 then '-' else '+') :: natToString e.natAbs

/-- The exponent form of Number::toString: the first significant digit, a point and the
other digits when there are any, then the exponent part. -/
def scientific (ds : List Char) (e : Int) : List Char :=
  match ds with
  | [] => exponentPart e
  | [d] => d :: exponentPart e
  | d :: rest => d :: '.' :: (rest ++ exponentPart e)

/-- Number::toString of a positive finite Number with significant digits `s` and the decimal
point after `n` of them (`k` is the number of digits of `s`): plain digits and zeros when
`k ≤ n ≤ 21`, a point inside the digits when `0 < n ≤ 21`, `0.` and zeros before the digits
when `-6 < n ≤ 0`, the exponent form otherwise. -/
def numberText (s : Nat) (n : Int) : List Char :=
  let ds := natToString s
  let k : Int := ds.length
  if k ≤ n ∧ n ≤ 21 then ds ++ List.replicate (n - k).toNat '0'
  else if 0 < n ∧ n ≤ 21 then ds.take n.toNat ++ '.' :: ds.drop n.toNat
  else if -6 < n ∧ n ≤ 0 then '0' :: '.' :: (List.replicate (-n).toNat '0' ++ ds)
  else scientific ds (n - 1)

/-- The conversion `String(x)` of a Number given by its printed form. -/
def numberToString : JsNumber → List Char
  | .nan => "NaN".toList
  | .infinity false => "Infinity".toList
  | .infinity true => "-Infinity".toList
  | .finite negative s n => (if negative then ['-'] else []) ++ numberText s n

/-- Number::toString of a non-negative integer: its decimal digits below `10^21`, and from
`10^21` on the exponent form of its digits without the trailing zeros (`1e+21`). -/
def integerText (n : Nat) : List Char :=
  if n < 1000000000000000000000 then natToString n
  else
    scientific ((natToString n).reverse.dropWhile (fun c => c == '0')).reverse
      (((natToString n).length : Int) - 1)

/-- The conversion `String(value)`. -/
def toStringJs : JsValue → List Char
  | .undefined => "undefined".toList
  | .null => "null".toList
  | .bool true => "true".toList
  | .bool false => "false".toList
  | .num (Int.ofNat n) => integerText n
  | .num (Int.negSucc n) => '-' :: integerText (n + 1)
  | .number x => numberToString x
  | .str s => s
  | .obj text => text

/-- The class `\d` of a regular expression without the `u` flag: the ten ASCII digits. -/
def isDigit (c : Char) : Bool :=
  48 ≤ c.toNat && c.toNat ≤ 57

/-- Value of a decimal digit character. -/
def digitValue (c : Char) : Nat :=
  c.toNat - 48

/-- The digit loop of `parseInt(_, 10)`: consumes the longest prefix of decimal digits. -/
def parseDigits : List Char → Nat → Nat
  | [], acc => acc
  | c :: cs, acc => if isDigit c then parseDigits cs (acc * 10 + digitValue c) else acc

/-- The call `parseInt(s, 10)`: skips leading whitespace, reads an optional sign and the longest
run of digits; `none` is `NaN`. The value is the exact integer (the runtime rounds it to a
double, which is exact below `2^53` and keeps every comparison with 1 and 3999). -/
def parseInt10 (s : List Char) : Option Int :=
  match s.dropWhile isJsWhitespace with
  | [] => none
  | '-' :: cs =>
    match cs with
    | [] => none
    | d :: _ => if isDigit d then some (-(parseDigits cs 0 : Int)) else none
  | '+' :: cs =>
    match cs with
    | [] => none
    | d :: _ => if isDigit d then some (parseDigits cs 0 : Int) else none
  | d :: cs => if isDigit d then some (parseDigits (d :: cs) 0 : Int) else none

/-! ## Regular expressions -/

/-- The fragment of regular expressions the source uses: literal characters, character
classes, sequence, alternation, `?`, `{0,n}` and `+`. -/
inductive Re where
  | chr (c : Char)
  | cls (p : Char → Bool)
  | seq (a b : Re)
  | alt (a b : Re)
  | opt (a : Re)
  | upTo (n : Nat) (a : Re)
  | plus (a : Re)

/-- Greedy bounded repetition `{0,n}` of a matcher `m`, then the continuation `k`. -/
def runUpTo (m : List Char → (List Char → Bool) → Bool) :
    Nat → List Char → (List Char → Bool) → Bool
  | 0, s, k => k s
  | n + 1, s, k => m s (fun rest => runUpTo m n rest k) || k s

/-- Greedy repetition `+` of a matcher `m` (at least once), then the continuation `k`. An
iteration that consumes nothing ends the repetition; `fuel` bounds the iterations, and one more
than the length of the input is always enough. -/
def runPlus (m : List Char → (List Char → Bool) → Bool) :
    Nat → List Char → (List Char → Bool) → Bool
  | 0, _, _ => false
  | fuel + 1, s, k =>
    m s (fun rest => (rest.length < s.length && runPlus m fuel rest k) || k rest)

/-- Backtracking matcher: `r.run s k` tries every way `r` can match a prefix of `s`, in
priority order, and succeeds when the continuation `k` accepts the remaining input. -/
def Re.run : Re → List Char → (List Char → Bool) → Bool
  | .chr c, s, k =>
    match s with
    | [] => false
    | x :: rest => x == c && k rest
  | .cls p, s, k =>
    match s with
    | [] => false
    | x :: rest => p x && k rest
  | .seq a b, s, k => a.run s (fun rest => b.run rest k)
  | .alt a b, s, k => a.run s k || b.run s k
  | .opt a, s, k => a.run s k || k s
  | .upTo n a, s, k => runUpTo a.run n s k
  | .plus a, s, k => runPlus a.run (s.length + 1) s k

/-- The call `/^r$/.test(s)`: the whole string must match. -/
def Re.test (r : Re) (s : List Char) : Bool :=
  r.run s (fun rest => rest.isEmpty)

/-! ## romanToArabic (src/server.js, lines 40-90) -/

/-- The character class `[IVXLCDM]`. -/
def isRomanChar (c : Char) : Bool :=
  c == 'I' || c == 'V' || c == 'X' || c == 'L' || c == 'C' || c == 'D' || c == 'M'

/-- The pattern `/^[IVXLCDM]+$/` of the character check. -/
def charPattern : Re :=
  .plus (.cls isRomanChar)

/-- The hundreds, tens or units group `(ac|ab|b?a{0,3})` of `validPattern`. -/
def groupPattern (a b c : Char) : Re :=
  .alt (.seq (.chr a) (.chr c)) (.alt (.seq (.chr a) (.chr b)) (.seq (.opt (.chr b)) (.upTo 3 (.chr a))))

/-- The pattern `/^M{0,3}(CM|CD|D?C{0,3})(XC|XL|L?X{0,3})(IX|IV|V?I{0,3})$/`. -/
def validPattern : Re :=
  .seq (.upTo 3 (.chr 'M'))
    (.seq (groupPattern 'C' 'D' 'M') (.seq (groupPattern 'X' 'L' 'C') (groupPattern 'I' 'V' 'X')))

/-- The table `valores`; `none` is the `undefined` of a missing key. -/
def valores (c : Char) : Option Int :=
  if c = 'I' then some 1
  else if c = 'V' then some 5
  else if c = 'X' then some 10
  else if c = 'L' then some 50
  else if c = 'C' then some 100
  else if c = 'D' then some 500
  else if c = 'M' then some 1000
  else none

/-- The decoding loop `for (let i = 0; i < romanUpper.length; i++)`, on the characters from
position `i` on and the running `total`. `actual` is `valores[romanUpper[i]]`, `siguiente` is
`valores[romanUpper[i + 1]]`, absent past the end. The loop runs only on strings that passed
the character check, where every `actual` is defined (`valores_isSome`); the default `0`
is never used there. -/
def decodeLoop : List Char → Int → Int
  | [], total => total
  | c :: rest, total =>
    let actual := (valores c).getD 0
    let siguiente := rest.head?.bind valores
    match siguiente with
    | some sig => if actual < sig then decodeLoop rest (total - actual) else decodeLoop rest (total + actual)
    | none => decodeLoop rest (total + actual)

/-- The function `romanToArabic`. -/
def romanToArabic (roman : JsValue) : Except ErrorKind Int :=
  match roman with
  | .str (c :: cs) =>
    let romanUpper := trim (toUpperCase (c :: cs))
    if !charPattern.test romanUpper then .error .InvalidCharacters
    else if !validPattern.test romanUpper then .error .InvalidGrammar
    else
      let total := decodeLoop romanUpper 0
      if total < 1 || total > 3999 then .error .RomanOutOfRange
      else .ok total
  | _ => .error .InvalidInput

/-! ## arabicToRoman (src/server.js, lines 98-144) -/

/-- The pattern `/^\d+$/`. -/
def digitPattern : Re :=
  .plus (.cls isDigit)

/-- The table `conversiones`. -/
def conversiones : List (Nat × List Char) :=
  [(1000, ['M']), (900, ['C', 'M']), (500, ['D']), (400, ['C', 'D']), (100, ['C']),
   (90, ['X', 'C']), (50, ['L']), (40, ['X', 'L']), (10, ['X']), (9, ['I', 'X']),
   (5, ['V']), (4, ['I', 'V']), (1, ['I'])]

/-- The inner loop `while (restante >= valor)`, as a pair `(resultado, restante)`. `fuel`
bounds the iterations; `none` when it runs out. -/
def whileLoop (valor : Nat) (simbolo : List Char) :
    Nat → List Char × Nat → Option (List Char × Nat)
  | 0, (resultado, restante) =>
    if restante ≥ valor then none else some (resultado, restante)
  | fuel + 1, (resultado, restante) =>
    if restante ≥ valor then whileLoop valor simbolo fuel (resultado ++ simbolo, restante - valor)
    else some (resultado, restante)

/-- The outer loop `for (const { valor, simbolo } of conversiones)`. -/
def forLoop : List (Nat × List Char) → Nat → List Char × Nat → Option (List Char × Nat)
  | [], _, st => some st
  | (valor, simbolo) :: rest, fuel, st =>
    match whileLoop valor simbolo fuel st with
    | none => none
    | some st1 => forLoop rest fuel st1

/-- The greedy conversion of `arabicToRoman` (lines 133-143): `resultado` after both loops,
run with fuel `numero`, which is enough (`greedy_isSome`). -/
def greedy (numero : Nat) : Option (List Char) :=
  (forLoop conversiones numero ([], numero)).map Prod.fst

/-- The function `arabicToRoman`. The `Option` in the result is the fuel of the loops: the
value is never `ok none` (`arabicToRoman_ne_ok_none`). -/
def arabicToRoman (num : JsValue) : Except ErrorKind (Option (List Char)) :=
  let numStr := trim (toStringJs num)
  if !digitPattern.test numStr then .error .InvalidFormat
  else
    match parseInt10 numStr with
    | none => .error .NotANumber
    | some numero =>
      if numero < 1 || numero > 3999 then .error .OutOfRange
      else .ok (greedy numero.toNat)

/-! ## Specification-side definitions -/

/-- The language of a regular expression: the strings it matches as a whole. -/
def Re.Lang : Re → List Char → Prop
  | .chr c, u => u = [c]
  | .cls p, u => ∃ x, p x = true ∧ u = [x]
  | .seq a b, u => ∃ x y, u = x ++ y ∧ a.Lang x ∧ b.Lang y
  | .alt a b, u => a.Lang u ∨ b.Lang u
  | .opt a, u => u = [] ∨ a.Lang u
  | .upTo n a, u => ∃ ws : List (List Char), ws.length ≤ n ∧ (∀ w ∈ ws, a.Lang w) ∧ u = ws.flatten
  | .plus a, u => ∃ ws : List (List Char), ws ≠ [] ∧ (∀ w ∈ ws, a.Lang w) ∧ u = ws.flatten

/-- The group of symbols for one decimal digit, with `a` the unit symbol, `b` the five symbol
and `c` the ten symbol: `''`, `a`, `aa`, `aaa`, `ab`, `b`, `ba`, `baa`, `baaa`, `ac`. -/
def digitGroup (a b c : Char) : Nat → List Char
  | 0 => []
  | 1 => [a]
  | 2 => [a, a]
  | 3 => [a, a, a]
  | 4 => [a, b]
  | 5 => [b]
  | 6 => [b, a]
  | 7 => [b, a, a]
  | 8 => [b, a, a, a]
  | _ => [a, c]

/-- The numeral with `m` leading `M` and the hundreds, tens and units digits `h`, `t`, `u`. -/
def numeral (m h t u : Nat) : List Char :=
  List.replicate m 'M' ++ (digitGroup 'C' 'D' 'M' h ++ (digitGroup 'X' 'L' 'C' t ++
    digitGroup 'I' 'V' 'X' u))

/-- The canonical numeral of `n`: `n / 1000` copies of `M`, then the groups of the hundreds,
tens and units digits of `n`. -/
def canonical (n : Nat) : List Char :=
  numeral (n / 1000) (n / 100 % 10) (n / 10 % 10) (n % 10)

/-- The decoding loop on a piece of a string that is followed by the symbol `next` (`none` at
the end of the string): the lookahead of the last position of the piece is `next`. -/
def decodeWith (next : Option Char) : List Char → Int → Int
  | [], total => total
  | c :: rest, total =>
    let actual := (valores c).getD 0
    let siguiente := (match rest with | [] => next | d :: _ => some d).bind valores
    match siguiente with
    | some sig =>
      if actual < sig then decodeWith next rest (total - actual)
      else decodeWith next rest (total + actual)
    | none => decodeWith next rest (total + actual)

/-- The signed contribution of the symbol `c` when it is followed by `next`: minus its value
when the value of `next` is strictly greater, plus its value otherwise. -/
def signedValue (c : Char) (next : Option Char) : Int :=
  match next.bind valores with
  | some sig => if (valores c).getD 0 < sig then -((valores c).getD 0) else (valores c).getD 0
  | none => (valores c).getD 0

/-- First symbol of `y`, or `next` when `y` is empty. -/
def headOr (y : List Char) (next : Option Char) : Option Char :=
  match y with
  | [] => next
  | d :: _ => some d

/-- The value of a digit group with unit symbol `a`, five symbol `b`, ten symbol `c` and unit
value `unit`: `ac` is nine units, `ab` four units, and `b?a{0,3}` five units per `b` plus one
unit per `a`. -/
def groupValue (a b c : Char) (unit : Int) (g : List Char) : Int :=
  if g = [a, c] then 9 * unit
  else if g = [a, b] then 4 * unit
  else 5 * unit * (g.count b : Int) + unit * (g.count a : Int)

/-- The integer a string of decimal digits denotes: each digit times the power of ten of its
position. -/
def decimalValue : List Char → Nat
  | [] => 0
  | c :: cs => digitValue c * 10 ^ cs.length + decimalValue cs

/-- Whether a string has four consecutive equal symbols. -/
def hasRun4 : List Char → Bool
  | a :: b :: c :: d :: rest => (a == b && b == c && c == d) || hasRun4 (b :: c :: d :: rest)
  | _ => false

/-- Closed form of one pass of the inner loop of `arabicToRoman`: the symbol of the entry is
appended `restante / valor` times and `restante % valor` remains. -/
def stepEntry (st : List Char × Nat) (e : Nat × List Char) : List Char × Nat :=
  (st.1 ++ (List.replicate (st.2 / e.1) e.2).flatten, st.2 % e.1)


/-! ## The copies of the converters under src/api -/

namespace R2A

/-- The table `valores` of `src/api/r2a.js` (lines 21-24). -/
def valores (c : Char) : Option Int :=
  if c = 'I' then some 1
  else if c = 'V' then some 5
  else if c = 'X' then some 10
  else if c = 'L' then some 50
  else if c = 'C' then some 100
  else if c = 'D' then some 500
  else if c = 'M' then some 1000
  else none

/-- The decoding loop of `src/api/r2a.js` (lines 28-37). -/
def decodeLoop : List Char → Int → Int
  | [], total => total
  | c :: rest, total =>
    let actual := (valores c).getD 0
    let siguiente := rest.head?.bind valores
    match siguiente with
    | some sig => if actual < sig then decodeLoop rest (total - actual) else decodeLoop rest (total + actual)
    | none => decodeLoop rest (total + actual)

/-- The function `romanToArabic` of `src/api/r2a.js` (lines 1-44). -/
def romanToArabic (roman : JsValue) : Except ErrorKind Int :=
  match roman with
  | .str (c :: cs) =>
    let romanUpper := trim (toUpperCase (c :: cs))
    if !(Re.plus (.cls isRomanChar)).test romanUpper then .error .InvalidCharacters
    else if !(Re.seq (.upTo 3 (.chr 'M'))
        (.seq (groupPattern 'C' 'D' 'M') (.seq (groupPattern 'X' 'L' 'C')
          (groupPattern 'I' 'V' 'X')))).test romanUpper then .error .InvalidGrammar
    else
      let total := decodeLoop romanUpper 0
      if total < 1 || total > 3999 then .error .RomanOutOfRange
      else .ok total
  | _ => .error .InvalidInput

end R2A

namespace A2R

/-- The table `conversiones` of `src/api/a2r.js` (lines 20-34). -/
def conversiones : List (Nat × List Char) :=
  [(1000, ['M']), (900, ['C', 'M']), (500, ['D']), (400, ['C', 'D']), (100, ['C']),
   (90, ['X', 'C']), (50, ['L']), (40, ['X', 'L']), (10, ['X']), (9, ['I', 'X']),
   (5, ['V']), (4, ['I', 'V']), (1, ['I'])]

/-- The function `arabicToRoman` of `src/api/a2r.js` (lines 1-47); the loops are those of
`forLoop`, run over the table of this file. -/
def arabicToRoman (num : JsValue) : Except ErrorKind (Option (List Char)) :=
  let numStr := trim (toStringJs num)
  if !(Re.plus (.cls isDigit)).test numStr then .error .InvalidFormat
  else
    match parseInt10 numStr with
    | none => .error .NotANumber
    | some numero =>
      if numero < 1 || numero > 3999 then .error .OutOfRange
      else .ok ((forLoop conversiones numero.toNat ([], numero.toNat)).map Prod.fst)

end A2R

namespace Convert

/-- The table `valores` of `src/api/convert.js` (lines 21-24). -/
def valores (c : Char) : Option Int :=
  if c = 'I' then some 1
  else if c = 'V' then some 5
  else if c = 'X' then some 10
  else if c = 'L' then some 50
  else if c = 'C' then some 100
  else if c = 'D' then some 500
  else if c = 'M' then some 1000
  else none

/-- The decoding loop of `src/api/convert.js` (lines 28-37). -/
def decodeLoop : List Char → Int → Int
  | [], total => total
  | c :: rest, total =>
    let actual := (valores c).getD 0
    let siguiente := rest.head?.bind valores
    match siguiente with
    | some sig => if actual < sig then decodeLoop rest (total - actual) else decodeLoop rest (total + actual)
    | none => decodeLoop rest (total + actual)

/-- The function `romanToArabic` of `src/api/convert.js` (lines 1-44). -/
def romanToArabic (roman : JsValue) : Except ErrorKind Int :=
  match roman with
  | .str (c :: cs) =>
    let romanUpper := trim (toUpperCase (c :: cs))
    if !(Re.plus (.cls isRomanChar)).test romanUpper then .error .InvalidCharacters
    else if !(Re.seq (.upTo 3 (.chr 'M'))
        (.seq (groupPattern 'C' 'D' 'M') (.seq (groupPattern 'X' 'L' 'C')
          (groupPattern 'I' 'V' 'X')))).test romanUpper then .error .InvalidGrammar
    else
      let total := decodeLoop romanUpper 0
      if total < 1 || total > 3999 then .error .RomanOutOfRange
      else .ok total
  | _ => .error .InvalidInput

/-- The table `conversiones` of `src/api/convert.js` (lines 64-78). -/
def conversiones : List (Nat × List Char) :=
  [(1000, ['M']), (900, ['C', 'M']), (500, ['D']), (400, ['C', 'D']), (100, ['C']),
   (90, ['X', 'C']), (50, ['L']), (40, ['X', 'L']), (10, ['X']), (9, ['I', 'X']),
   (5, ['V']), (4, ['I', 'V']), (1, ['I'])]

/-- The function `arabicToRoman` of `src/api/convert.js` (lines 45-91). -/
def arabicToRoman (num : JsValue) : Except ErrorKind (Option (List Char)) :=
  let numStr := trim (toStringJs num)
  if !(Re.plus (.cls isDigit)).test numStr then .error .InvalidFormat
  else
    match parseInt10 numStr with
    | none => .error .NotANumber
    | some numero =>
      if numero < 1 || numero > 3999 then .error .OutOfRange
      else .ok ((forLoop conversiones numero.toNat ([], numero.toNat)).map Prod.fst)

end Convert

/-! ## Requests and responses -/

/-- HTTP methods. -/
inductive Method where
  | GET
  | HEAD
  | POST
  | PUT
  | PATCH
  | DELETE
  | OPTIONS
  deriving DecidableEq, Repr

/-- The routes of the application; `unknown` is any other path. -/
inductive Route where
  | docs
  | r2a
  | a2r
  | convert
  | batch
  | unknown
  deriving DecidableEq, Repr

/-- The `message` field of an error body:
* `conversion e`          : the message of the `Error` a converter threw
* `typeError`             : the message of a `TypeError` of the runtime
* `methodNotAllowedGet`   : 'Método no permitido. Use GET'
* `methodNotAllowedPost`  : 'Método no permitido. Use POST'
* `romanRequired`         : 'Parámetro "roman" es requerido'
* `arabicRequired`        : 'Parámetro "arabic" es requerido'
* `valueRequired`         : 'Campo "value" es requerido'
* `valuesRequired`        : 'Campo "values" debe ser un array no vacío'
* `notFound`              : 'Endpoint no encontrado' -/
inductive Message where
  | conversion (e : ErrorKind)
  | typeError
  | methodNotAllowedGet
  | methodNotAllowedPost
  | romanRequired
  | arabicRequired
  | valueRequired
  | valuesRequired
  | notFound
  deriving DecidableEq, Repr

/-- The object a conversion produces, as built by the handlers:
* `romanToArabic input roman arabic` : status 'success', direction roman_to_arabic
* `arabicToRoman input arabic roman` : status 'success', direction arabic_to_roman; `input` and
  `arabic` are `parseInt(value)`, `none` being `NaN`; `roman` is the result of the loops
* `error input message`              : status 'error' -/
inductive Entry where
  | romanToArabic (input roman : List Char) (arabic : Int)
  | arabicToRoman (input arabic : Option Int) (roman : Option (List Char))
  | error (input : JsValue) (message : Message)
  deriving DecidableEq, Repr

/-- The body of a response:
* `none`                 : no body (`.end()`)
* `message m`            : `{status: 'error', message}`
* `required m`           : `{status: 'error', message, example}`
* `result e timestamp`   : the object of a conversion, with `timestamp`
* `failure m input`      : `{status: 'error', message, input}`
* `results total rs ts`  : `{status: 'success', total, results, timestamp}`
* `documentation ts`     : the payload of `GET /api`
* `notFound`             : `{status: 'error', message, path, availableEndpoints}` -/
inductive Body where
  | none
  | message (m : Message)
  | required (m : Message)
  | result (e : Entry) (timestamp : List Char)
  | failure (m : Message) (input : JsValue)
  | results (total : Nat) (rs : List Entry) (timestamp : List Char)
  | documentation (timestamp : List Char)
  | notFound
  deriving DecidableEq, Repr

/-- A response: HTTP status and body. -/
structure Response where
  status : Nat
  body : Body
  deriving DecidableEq, Repr

/-- JavaScript falsiness (`!value`). -/
def isFalsy : JsValue → Bool
  | .undefined => true
  | .null => true
  | .bool b => !b
  | .num n => n == 0
  | .number .nan => true
  | .number (.infinity _) => false
  | .number (.finite _ s _) => s == 0
  | .str s => s.isEmpty
  | .obj _ => false

/-- The method call `value.toUpperCase()`: a `TypeError` unless `value` is a string. -/
def toUpperCaseOf : JsValue → Except Message (List Char)
  | .str s => .ok (toUpperCase s)
  | _ => .error .typeError

/-- Value of a hexadecimal digit. -/
def hexValue (c : Char) : Option Nat :=
  let n := c.toNat
  if 48 ≤ n ∧ n ≤ 57 then some (n - 48)
  else if 65 ≤ n ∧ n ≤ 70 then some (n - 55)
  else if 97 ≤ n ∧ n ≤ 102 then some (n - 87)
  else none

/-- The digit loop of `parseInt` in radix 16. -/
def parseHexDigits : List Char → Nat → Nat
  | [], acc => acc
  | c :: cs, acc =>
    match hexValue c with
    | some d => parseHexDigits cs (acc * 16 + d)
    | none => acc

/-- The unsigned part of `parseInt(s)` without radix: hexadecimal after `0x` or `0X`, decimal
otherwise; `none` is `NaN`. -/
def parseUnsigned (cs : List Char) : Option Nat :=
  match cs with
  | [] => none
  | d :: rest =>
    if d = '0' ∧ (rest.head? = some 'x' ∨ rest.head? = some 'X') then
      match rest.tail with
      | [] => none
      | h :: _ => if (hexValue h).isSome then some (parseHexDigits rest.tail 0) else none
    else if isDigit d then some (parseDigits (d :: rest) 0)
    else none

/-- The call `parseInt(value)`, without radix, on the text of `value`. -/
def parseIntJs (value : JsValue) : Option Int :=
  match (toStringJs value).dropWhile isJsWhitespace with
  | [] => none
  | c :: cs =>
    if c = '-' then (parseUnsigned cs).map (fun n => -(n : Int))
    else if c = '+' then (parseUnsigned cs).map (fun n => (n : Int))
    else (parseUnsigned (c :: cs)).map (fun n => (n : Int))

/-- The class `[IVXLCDM]` under the `i` flag: the seven letters in either case. -/
def isRomanCharAnyCase (c : Char) : Bool :=
  isRomanChar c || c == 'i' || c == 'v' || c == 'x' || c == 'l' || c == 'c' || c == 'd' ||
    c == 'm'

/-- The pattern `/^[IVXLCDM]+$/i` of the dispatch. -/
def dispatchPattern : Re :=
  .plus (.cls isRomanCharAnyCase)

/-- The test `typeof value === 'string' && /^[IVXLCDM]+$/i.test(value)`. -/
def esRomano (value : JsValue) : Bool :=
  match value with
  | .str s => dispatchPattern.test s
  | _ => false


/-! ## The handlers of src/server.js -/

/-- The guard `value === undefined || value === null || value === ''` of the conversion
handlers (`src/server.js` line 235, `src/api/convert.js` line 112). -/
def valueMissing : JsValue → Bool
  | .undefined => true
  | .null => true
  | .str [] => true
  | _ => false

namespace Server

/-- The body of the `try` of `GET /api/r2a` after the parameter check (lines 167-175). -/
def r2aEntry (roman : JsValue) : Except Message Entry :=
  match romanToArabic roman with
  | .error e => .error (.conversion e)
  | .ok arabicResult =>
    match toUpperCaseOf roman with
    | .error m => .error m
    | .ok upper => .ok (.romanToArabic upper upper arabicResult)

/-- The handler of `GET /api/r2a` (lines 155-184); `roman` is `req.query.roman`. -/
def getR2a (roman : JsValue) (timestamp : List Char) : Response :=
  if isFalsy roman then ⟨400, .required .romanRequired⟩
  else
    match r2aEntry roman with
    | .ok e => ⟨200, .result e timestamp⟩
    | .error m => ⟨400, .failure m roman⟩

/-- The body of the `try` of `GET /api/a2r` after the parameter check (lines 203-211). -/
def a2rEntry (arabic : JsValue) : Except Message Entry :=
  match arabicToRoman arabic with
  | .error e => .error (.conversion e)
  | .ok romanResult => .ok (.arabicToRoman (parseIntJs arabic) (parseIntJs arabic) romanResult)

/-- The handler of `GET /api/a2r` (lines 191-220); `arabic` is `req.query.arabic`. -/
def getA2r (arabic : JsValue) (timestamp : List Char) : Response :=
  if isFalsy arabic then ⟨400, .required .arabicRequired⟩
  else
    match a2rEntry arabic with
    | .ok e => ⟨200, .result e timestamp⟩
    | .error m => ⟨400, .failure m arabic⟩

/-- The dispatch of `POST /api/convert` and of the callback of `POST /api/batch` (lines
244-266 and 296-314): `romanToArabic` when `esRomano`, `arabicToRoman` otherwise. -/
def convertEntry (value : JsValue) : Except Message Entry :=
  if esRomano value then r2aEntry value else a2rEntry value

/-- The handler of `POST /api/convert` (lines 231-275); `value` is `req.body.value`. -/
def postConvert (value : JsValue) (timestamp : List Char) : Response :=
  if valueMissing value then ⟨400, .required .valueRequired⟩
  else
    match convertEntry value with
    | .ok e => ⟨200, .result e timestamp⟩
    | .error m => ⟨400, .failure m value⟩

/-- The callback of `values.map` in `POST /api/batch` (lines 294-322): the inner `try` turns
a thrown error into an entry. -/
def batchEntry (value : JsValue) : Entry :=
  match convertEntry value with
  | .ok e => e
  | .error m => .error value m

/-- The handler of `POST /api/batch` (lines 282-337); `values` is `req.body.values`, `none`
when it is not an array. -/
def postBatch (values : Option (List JsValue)) (timestamp : List Char) : Response :=
  match values with
  | none => ⟨400, .required .valuesRequired⟩
  | some [] => ⟨400, .required .valuesRequired⟩
  | some (v :: vs) => ⟨200, .results (v :: vs).length ((v :: vs).map batchEntry) timestamp⟩

/-- A request to the application: method, the route its path resolves to, and the fields the
handlers read. -/
structure Request where
  method : Method
  route : Route
  queryRoman : JsValue
  queryArabic : JsValue
  bodyValue : JsValue
  bodyValues : Option (List JsValue)

/-- The Express application (lines 11-28, 155-385): the `cors` middleware answers every
`OPTIONS` request with 204; `app.get` routes serve `GET` and `HEAD`, `app.post` routes serve
`POST`; a request no route takes reaches the final `app.use`, which answers 404. Static files
of `public/` are taken not to shadow the routes. -/
def app (req : Request) (timestamp : List Char) : Response :=
  if req.method = .OPTIONS then ⟨204, .none⟩
  else if (req.method = .GET ∨ req.method = .HEAD) ∧ req.route = .r2a then
    getR2a req.queryRoman timestamp
  else if (req.method = .GET ∨ req.method = .HEAD) ∧ req.route = .a2r then
    getA2r req.queryArabic timestamp
  else if req.method = .POST ∧ req.route = .convert then postConvert req.bodyValue timestamp
  else if req.method = .POST ∧ req.route = .batch then postBatch req.bodyValues timestamp
  else if (req.method = .GET ∨ req.method = .HEAD) ∧ req.route = .docs then
    ⟨200, .documentation timestamp⟩
  else ⟨404, .notFound⟩

end Server

/-! ## The handlers of src/api -/

namespace R2A

/-- The handler of `src/api/r2a.js` (lines 46-91). -/
def handler (method : Method) (roman : JsValue) (timestamp : List Char) : Response :=
  if method = .OPTIONS then ⟨200, .none⟩
  else if method ≠ .GET then ⟨405, .message .methodNotAllowedGet⟩
  else if isFalsy roman then ⟨400, .required .romanRequired⟩
  else
    match romanToArabic roman with
    | .error e => ⟨400, .failure (.conversion e) roman⟩
    | .ok arabicResult =>
      match toUpperCaseOf roman with
      | .error m => ⟨400, .failure m roman⟩
      | .ok upper => ⟨200, .result (.romanToArabic upper upper arabicResult) timestamp⟩

end R2A

namespace A2R

/-- The handler of `src/api/a2r.js` (lines 49-94). -/
def handler (method : Method) (arabic : JsValue) (timestamp : List Char) : Response :=
  if method = .OPTIONS then ⟨200, .none⟩
  else if method ≠ .GET then ⟨405, .message .methodNotAllowedGet⟩
  else if isFalsy arabic then ⟨400, .required .arabicRequired⟩
  else
    match arabicToRoman arabic with
    | .error e => ⟨400, .failure (.conversion e) arabic⟩
    | .ok romanResult =>
      ⟨200, .result (.arabicToRoman (parseIntJs arabic) (parseIntJs arabic) romanResult)
        timestamp⟩

end A2R

namespace Convert

/-- The dispatch of the handler of `src/api/convert.js` (lines 120-141). -/
def convertEntry (value : JsValue) : Except Message Entry :=
  if esRomano value then
    match romanToArabic value with
    | .error e => .error (.conversion e)
    | .ok arabic =>
      match toUpperCaseOf value with
      | .error m => .error m
      | .ok upper => .ok (.romanToArabic upper upper arabic)
  else
    match arabicToRoman value with
    | .error e => .error (.conversion e)
    | .ok roman => .ok (.arabicToRoman (parseIntJs value) (parseIntJs value) roman)

/-- The handler of `src/api/convert.js` (lines 93-153); `value` is `req.body.value`. -/
def handler (method : Method) (value : JsValue) (timestamp : List Char) : Response :=
  if method = .OPTIONS then ⟨200, .none⟩
  else if method ≠ .POST then ⟨405, .message .methodNotAllowedPost⟩
  else if valueMissing value then ⟨400, .required .valueRequired⟩
  else
    match convertEntry value with
    | .ok e => ⟨200, .result e timestamp⟩
    | .error m => ⟨400, .failure m value⟩

end Convert


/-! ## Specification-side definitions for the rejection and tolerance claims -/

/-- The six subtractive pairs. -/
def subtractivePairs : List (List Char) :=
  [['I', 'V'], ['I', 'X'], ['X', 'L'], ['X', 'C'], ['C', 'D'], ['C', 'M']]

/-- Whether the symbol `x`, followed by `rest`, stands before a symbol of strictly greater
value other than as the first symbol of a subtractive pair. -/
def greaterAfter (x : Char) (rest : List Char) : Bool :=
  match rest with
  | [] => false
  | y :: more =>
    (decide ((valores x).getD 0 < (valores y).getD 0) && !(subtractivePairs.contains [x, y])) ||
      more.any (fun z => decide ((valores x).getD 0 < (valores z).getD 0))

/-- Whether some symbol of the string is out of denomination order. -/
def outOfOrder : List Char → Bool
  | [] => false
  | x :: rest => greaterAfter x rest || outOfOrder rest

/-- A string has a repeated subtractive pair when one of the six pairs occurs in it twice. -/
def RepeatedPair (s : List Char) : Prop :=
  ∃ p ∈ subtractivePairs, ∃ a b c, s = a ++ (p ++ (b ++ (p ++ c)))

/-- A string has symbols out of denomination order when a symbol stands somewhere before a
symbol of strictly greater value, unless the two are adjacent and form a subtractive pair. -/
def OutOfOrder (s : List Char) : Prop :=
  ∃ pre x mid y post, s = pre ++ (x :: (mid ++ (y :: post))) ∧
    (valores x).getD 0 < (valores y).getD 0 ∧ ¬ (mid = [] ∧ [x, y] ∈ subtractivePairs)

/-- A letter `x` is the letter `y` in either case: the same character, or the lower-case
ASCII form of the upper-case letter `y`. -/
def SameLetter (x y : Char) : Prop :=
  x = y ∨ x.toNat = y.toNat + 32

/-! ## The matcher computes the language -/

theorem runUpTo_iff (m : List Char → (List Char → Bool) → Bool) (La : List Char → Prop)
    (hm : ∀ s k, m s k = true ↔ ∃ u v, s = u ++ v ∧ La u ∧ k v = true) :
    ∀ (n : Nat) (s : List Char) (k : List Char → Bool),
      runUpTo m n s k = true ↔
        ∃ (ws : List (List Char)) (v : List Char),
          ws.length ≤ n ∧ (∀ w ∈ ws, La w) ∧ s = ws.flatten ++ v ∧ k v = true := by
  intro n
  induction n with
  | zero =>
    intro s k
    simp only [runUpTo]
    constructor
    · intro h
      exact ⟨[], s, by simp, by simp, by simp, h⟩
    · rintro ⟨ws, v, hlen, _, hs, hk⟩
      have : ws = [] := List.length_eq_zero.mp (Nat.le_zero.mp hlen)
      subst this
      simpa [hs] using hk
  | succ n ih =>
    intro s k
    simp only [runUpTo, Bool.or_eq_true, hm, ih]
    constructor
    · rintro (⟨u, v, hs, hu, ws, v2, hlen, hws, hv, hk⟩ | hk)
      · refine ⟨u :: ws, v2, by simpa using hlen, ?_, ?_, hk⟩
        · intro w hw
          rcases List.mem_cons.mp hw with h | h
          · exact h ▸ hu
          · exact hws w h
        · simp [hs, hv]
      · exact ⟨[], s, by simp, by simp, by simp, hk⟩
    · rintro ⟨ws, v, hlen, hws, hs, hk⟩
      cases ws with
      | nil => right; simpa [hs] using hk
      | cons w ws =>
        left
        refine ⟨w, ws.flatten ++ v, by simp [hs], hws w (by simp), ws, v, ?_, ?_, rfl, hk⟩
        · simpa using hlen
        · intro w2 hw2
          exact hws w2 (List.mem_cons_of_mem _ hw2)

theorem runPlus_sound (m : List Char → (List Char → Bool) → Bool) (La : List Char → Prop)
    (hm : ∀ s k, m s k = true ↔ ∃ u v, s = u ++ v ∧ La u ∧ k v = true) :
    ∀ (fuel : Nat) (s : List Char) (k : List Char → Bool),
      runPlus m fuel s k = true →
        ∃ (ws : List (List Char)) (v : List Char),
          ws ≠ [] ∧ (∀ w ∈ ws, La w) ∧ s = ws.flatten ++ v ∧ k v = true := by
  intro fuel
  induction fuel with
  | zero => intro s k h; simp [runPlus] at h
  | succ fuel ih =>
    intro s k h
    simp only [runPlus, hm, Bool.or_eq_true, Bool.and_eq_true] at h
    obtain ⟨u, v, hs, hu, h2⟩ := h
    rcases h2 with ⟨_, h3⟩ | hk
    · obtain ⟨ws, v2, _, hws, hv, hk⟩ := ih v k h3
      refine ⟨u :: ws, v2, by simp, ?_, by simp [hs, hv], hk⟩
      intro w hw
      rcases List.mem_cons.mp hw with h | h
      · exact h ▸ hu
      · exact hws w h
    · exact ⟨[u], v, by simp, by simpa using hu, by simp [hs], hk⟩

theorem runPlus_complete (m : List Char → (List Char → Bool) → Bool) (La : List Char → Prop)
    (hm : ∀ s k, m s k = true ↔ ∃ u v, s = u ++ v ∧ La u ∧ k v = true)
    (k : List Char → Bool) (v : List Char) (hk : k v = true) :
    ∀ (ws : List (List Char)), ws ≠ [] → (∀ w ∈ ws, La w) →
      ∀ (fuel : Nat), (ws.flatten ++ v).length < fuel →
        runPlus m fuel (ws.flatten ++ v) k = true := by
  intro ws
  induction ws with
  | nil => intro h; exact absurd rfl h
  | cons w ws ih =>
    intro _ hws fuel hfuel
    cases fuel with
    | zero => omega
    | succ fuel =>
      have hw : La w := hws w (by simp)
      have hws2 : ∀ w2 ∈ ws, La w2 := fun w2 h2 => hws w2 (List.mem_cons_of_mem _ h2)
      by_cases hnil : ws = []
      · subst hnil
        simp only [runPlus, hm, Bool.or_eq_true, Bool.and_eq_true]
        exact ⟨w, v, by simp, hw, Or.inr hk⟩
      · by_cases hwe : w = []
        · subst hwe
          have := ih hnil hws2 (fuel + 1) (by simpa using hfuel)
          simpa using this
        · simp only [runPlus, hm, Bool.or_eq_true, Bool.and_eq_true]
          refine ⟨w, ws.flatten ++ v, by simp, hw, Or.inl ⟨?_, ?_⟩⟩
          · have : 0 < w.length := List.length_pos.mpr hwe
            simp; omega
          · apply ih hnil hws2
            have : 0 < w.length := List.length_pos.mpr hwe
            simp at hfuel ⊢; omega

/-- The backtracking matcher agrees with the language: `r.run s k` succeeds exactly when `s`
splits into a word of the language of `r` and a rest the continuation accepts. -/
theorem Re.run_iff (r : Re) :
    ∀ (s : List Char) (k : List Char → Bool),
      r.run s k = true ↔ ∃ u v, s = u ++ v ∧ r.Lang u ∧ k v = true := by
  induction r with
  | chr c =>
    intro s k
    cases s with
    | nil => simp [Re.run, Re.Lang]
    | cons x rest =>
      simp only [Re.run, Re.Lang, Bool.and_eq_true, beq_iff_eq]
      constructor
      · rintro ⟨hx, hk⟩
        exact ⟨[c], rest, by simp [hx], rfl, hk⟩
      · rintro ⟨u, v, hs, hu, hk⟩
        subst hu
        simp at hs
        exact ⟨hs.1, hs.2 ▸ hk⟩
  | cls p =>
    intro s k
    cases s with
    | nil => simp [Re.run, Re.Lang]
    | cons x rest =>
      simp only [Re.run, Re.Lang, Bool.and_eq_true]
      constructor
      · rintro ⟨hx, hk⟩
        exact ⟨[x], rest, by simp, ⟨x, hx, rfl⟩, hk⟩
      · rintro ⟨u, v, hs, ⟨y, hy, hu⟩, hk⟩
        subst hu
        simp at hs
        exact ⟨hs.1 ▸ hy, hs.2 ▸ hk⟩
  | seq a b iha ihb =>
    intro s k
    simp only [Re.run, Re.Lang, iha, ihb]
    constructor
    · rintro ⟨u, v, hs, hu, u2, v2, hv, hu2, hk⟩
      exact ⟨u ++ u2, v2, by simp [hs, hv], ⟨u, u2, rfl, hu, hu2⟩, hk⟩
    · rintro ⟨w, v, hs, ⟨x, y, hw, hx, hy⟩, hk⟩
      exact ⟨x, y ++ v, by simp [hs, hw], hx, y, v, rfl, hy, hk⟩
  | alt a b iha ihb =>
    intro s k
    simp only [Re.run, Re.Lang, Bool.or_eq_true, iha, ihb]
    constructor
    · rintro (⟨u, v, hs, hu, hk⟩ | ⟨u, v, hs, hu, hk⟩)
      · exact ⟨u, v, hs, Or.inl hu, hk⟩
      · exact ⟨u, v, hs, Or.inr hu, hk⟩
    · rintro ⟨u, v, hs, hu | hu, hk⟩
      · exact Or.inl ⟨u, v, hs, hu, hk⟩
      · exact Or.inr ⟨u, v, hs, hu, hk⟩
  | opt a iha =>
    intro s k
    simp only [Re.run, Re.Lang, Bool.or_eq_true, iha]
    constructor
    · rintro (⟨u, v, hs, hu, hk⟩ | hk)
      · exact ⟨u, v, hs, Or.inr hu, hk⟩
      · exact ⟨[], s, rfl, Or.inl rfl, hk⟩
    · rintro ⟨u, v, hs, hu | hu, hk⟩
      · subst hu
        right
        simpa [hs] using hk
      · exact Or.inl ⟨u, v, hs, hu, hk⟩
  | upTo n a iha =>
    intro s k
    simp only [Re.run, Re.Lang]
    rw [runUpTo_iff a.run a.Lang iha]
    constructor
    · rintro ⟨ws, v, hlen, hws, hs, hk⟩
      exact ⟨ws.flatten, v, hs, ⟨ws, hlen, hws, rfl⟩, hk⟩
    · rintro ⟨u, v, hs, ⟨ws, hlen, hws, hu⟩, hk⟩
      exact ⟨ws, v, hlen, hws, hu ▸ hs, hk⟩
  | plus a iha =>
    intro s k
    simp only [Re.run, Re.Lang]
    constructor
    · intro h
      obtain ⟨ws, v, hne, hws, hs, hk⟩ := runPlus_sound a.run a.Lang iha _ s k h
      exact ⟨ws.flatten, v, hs, ⟨ws, hne, hws, rfl⟩, hk⟩
    · rintro ⟨u, v, hs, ⟨ws, hne, hws, hu⟩, hk⟩
      subst hu
      subst hs
      exact runPlus_complete a.run a.Lang iha k v hk ws hne hws _ (Nat.lt_succ_self _)

/-- The call `/^r$/.test(s)` decides membership in the language of `r`. -/
theorem Re.test_iff (r : Re) (s : List Char) : r.test s = true ↔ r.Lang s := by
  simp only [Re.test, Re.run_iff]
  constructor
  · rintro ⟨u, v, hs, hu, hv⟩
    have : v = [] := by simpa using hv
    subst this
    simpa [hs] using hu
  · intro h
    exact ⟨s, [], by simp, h, rfl⟩


/-! ## The languages of the patterns of the source -/

theorem lang_plus_cls (p : Char → Bool) (s : List Char) :
    (Re.plus (.cls p)).Lang s ↔ s ≠ [] ∧ ∀ c ∈ s, p c = true := by
  simp only [Re.Lang]
  constructor
  · rintro ⟨ws, hne, hws, hs⟩
    subst hs
    constructor
    · cases ws with
      | nil => exact absurd rfl hne
      | cons w ws =>
        obtain ⟨x, _, hx⟩ := hws w (by simp)
        simp [hx]
    · intro c hc
      obtain ⟨w, hw, hcw⟩ := List.mem_flatten.mp hc
      obtain ⟨x, hx, hwx⟩ := hws w hw
      subst hwx
      simp at hcw
      exact hcw ▸ hx
  · rintro ⟨hne, hall⟩
    refine ⟨s.map (fun c => [c]), by simpa using hne, ?_, ?_⟩
    · intro w hw
      obtain ⟨c, hc, hcw⟩ := List.mem_map.mp hw
      exact ⟨c, hall c hc, hcw.symm⟩
    · clear hne hall
      induction s with
      | nil => rfl
      | cons c s ih => simp [← ih]

theorem lang_upTo_chr (n : Nat) (c : Char) (u : List Char) :
    (Re.upTo n (.chr c)).Lang u ↔ ∃ m, m ≤ n ∧ u = List.replicate m c := by
  simp only [Re.Lang]
  constructor
  · rintro ⟨ws, hlen, hws, hu⟩
    refine ⟨ws.length, hlen, ?_⟩
    subst hu
    clear hlen
    induction ws with
    | nil => rfl
    | cons w ws ih =>
      have hw : w = [c] := hws w (by simp)
      have := ih (fun w2 h2 => hws w2 (List.mem_cons_of_mem _ h2))
      simp [hw, this, List.replicate_succ]
  · rintro ⟨m, hm, hu⟩
    refine ⟨List.replicate m [c], by simpa using hm, ?_, ?_⟩
    · intro w hw
      exact (List.mem_replicate.mp hw).2
    · subst hu
      clear hm
      induction m with
      | zero => rfl
      | succ m ih => simp [List.replicate_succ, ← ih]

theorem lang_groupPattern (a b c : Char) (u : List Char) :
    (groupPattern a b c).Lang u ↔ ∃ d, d < 10 ∧ u = digitGroup a b c d := by
  unfold groupPattern
  simp only [Re.Lang.eq_3, Re.Lang.eq_4, Re.Lang.eq_5, Re.Lang.eq_1, lang_upTo_chr]
  constructor
  · rintro (⟨x, y, hu, hx, hy⟩ | ⟨x, y, hu, hx, hy⟩ | ⟨x, y, hu, hx | hx, m, hm, hy⟩)
    · exact ⟨9, by decide, by simp [hu, hx, hy, digitGroup]⟩
    · exact ⟨4, by decide, by simp [hu, hx, hy, digitGroup]⟩
    · subst hx hy hu
      interval_cases m
      · exact ⟨0, by decide, rfl⟩
      · exact ⟨1, by decide, rfl⟩
      · exact ⟨2, by decide, rfl⟩
      · exact ⟨3, by decide, rfl⟩
    · subst hx hy hu
      interval_cases m
      · exact ⟨5, by decide, rfl⟩
      · exact ⟨6, by decide, rfl⟩
      · exact ⟨7, by decide, rfl⟩
      · exact ⟨8, by decide, rfl⟩
  · rintro ⟨d, hd, hu⟩
    subst hu
    interval_cases d
    · exact Or.inr (Or.inr ⟨[], [], rfl, Or.inl rfl, 0, by decide, rfl⟩)
    · exact Or.inr (Or.inr ⟨[], [a], rfl, Or.inl rfl, 1, by decide, rfl⟩)
    · exact Or.inr (Or.inr ⟨[], [a, a], rfl, Or.inl rfl, 2, by decide, rfl⟩)
    · exact Or.inr (Or.inr ⟨[], [a, a, a], rfl, Or.inl rfl, 3, by decide, rfl⟩)
    · exact Or.inr (Or.inl ⟨[a], [b], rfl, rfl, rfl⟩)
    · exact Or.inr (Or.inr ⟨[b], [], rfl, Or.inr rfl, 0, by decide, rfl⟩)
    · exact Or.inr (Or.inr ⟨[b], [a], rfl, Or.inr rfl, 1, by decide, rfl⟩)
    · exact Or.inr (Or.inr ⟨[b], [a, a], rfl, Or.inr rfl, 2, by decide, rfl⟩)
    · exact Or.inr (Or.inr ⟨[b], [a, a, a], rfl, Or.inr rfl, 3, by decide, rfl⟩)
    · exact Or.inl ⟨[a], [c], rfl, rfl, rfl⟩

/-- The language of `validPattern` is the set of numerals with at most three `M` and one digit
group each for hundreds, tens and units. -/
theorem lang_validPattern (s : List Char) :
    validPattern.Lang s ↔
      ∃ m h t u, m ≤ 3 ∧ h < 10 ∧ t < 10 ∧ u < 10 ∧ s = numeral m h t u := by
  unfold validPattern numeral
  simp only [Re.Lang.eq_3, lang_groupPattern, lang_upTo_chr]
  constructor
  · rintro ⟨x1, y1, hs, ⟨m, hm, hx1⟩, x2, y2, hy1, ⟨h, hh, hx2⟩, x3, y3, hy2, ⟨t, ht, hx3⟩,
      u, hu, hy3⟩
    exact ⟨m, h, t, u, hm, hh, ht, hu, by rw [hs, hx1, hy1, hx2, hy2, hx3, hy3]⟩
  · rintro ⟨m, h, t, u, hm, hh, ht, hu, hs⟩
    exact ⟨_, _, hs, ⟨m, hm, rfl⟩, _, _, rfl, ⟨h, hh, rfl⟩, _, _, rfl, ⟨t, ht, rfl⟩, u, hu, rfl⟩


/-! ## Decoding a numeral -/

theorem decodeLoop_cons (c : Char) (rest : List Char) (total : Int) :
    decodeLoop (c :: rest) total = decodeLoop rest (total + signedValue c rest.head?) := by
  rw [decodeLoop, signedValue]
  split <;> [split; skip] <;> simp_all [Int.sub_eq_add_neg]

theorem decodeWith_cons (next : Option Char) (c : Char) (rest : List Char) (total : Int) :
    decodeWith next (c :: rest) total =
      decodeWith next rest (total + signedValue c (headOr rest next)) := by
  simp only [decodeWith, signedValue, headOr.eq_def]
  split <;> [split; skip] <;> simp_all [Int.sub_eq_add_neg]

theorem decodeLoop_eq_decodeWith (s : List Char) :
    ∀ total, decodeLoop s total = decodeWith none s total := by
  induction s with
  | nil => intro total; rfl
  | cons c rest ih =>
    intro total
    rw [decodeLoop_cons, decodeWith_cons, ih]
    cases rest <;> rfl

theorem decodeWith_total (next : Option Char) (s : List Char) :
    ∀ total, decodeWith next s total = total + decodeWith next s 0 := by
  induction s with
  | nil => intro total; simp [decodeWith]
  | cons c rest ih =>
    intro total
    rw [decodeWith_cons, decodeWith_cons, ih (total + _), ih (0 + _)]
    omega

theorem decodeWith_append (next : Option Char) (x y : List Char) :
    ∀ total, decodeWith next (x ++ y) total =
      decodeWith next y (decodeWith (headOr y next) x total) := by
  induction x with
  | nil => intro total; rfl
  | cons c rest ih =>
    intro total
    rw [List.cons_append, decodeWith_cons, decodeWith_cons, ih]
    cases rest <;> rfl


theorem decodeWith_append_zero (next : Option Char) (x y : List Char) :
    decodeWith next (x ++ y) 0 = decodeWith (headOr y next) x 0 + decodeWith next y 0 := by
  rw [decodeWith_append, decodeWith_total]

theorem headOr_append (x y : List Char) (next : Option Char) :
    headOr (x ++ y) next = headOr x (headOr y next) := by
  cases x <;> rfl

theorem decode_units :
    ∀ u < 10, decodeWith none (digitGroup 'I' 'V' 'X' u) 0 = (u : Int) := by
  decide

theorem decode_tens :
    ∀ t < 10, ∀ next ∈ [none, some 'I', some 'V'],
      decodeWith next (digitGroup 'X' 'L' 'C' t) 0 = 10 * (t : Int) := by
  decide

theorem decode_hundreds :
    ∀ h < 10, ∀ next ∈ [none, some 'X', some 'L', some 'I', some 'V'],
      decodeWith next (digitGroup 'C' 'D' 'M' h) 0 = 100 * (h : Int) := by
  decide

theorem decode_thousands :
    ∀ m < 4, ∀ next ∈ [none, some 'C', some 'D', some 'X', some 'L', some 'I', some 'V'],
      decodeWith next (List.replicate m 'M') 0 = 1000 * (m : Int) := by
  decide

theorem head_units :
    ∀ u < 10, headOr (digitGroup 'I' 'V' 'X' u) none ∈ [none, some 'I', some 'V'] := by
  decide

theorem head_tens :
    ∀ t < 10, ∀ next ∈ [none, some 'I', some 'V'],
      headOr (digitGroup 'X' 'L' 'C' t) next ∈ [none, some 'X', some 'L', some 'I', some 'V'] := by
  decide

theorem head_hundreds :
    ∀ h < 10, ∀ next ∈ [none, some 'X', some 'L', some 'I', some 'V'],
      headOr (digitGroup 'C' 'D' 'M' h) next ∈
        [none, some 'C', some 'D', some 'X', some 'L', some 'I', some 'V'] := by
  decide

/-- The decoding loop on a numeral of the grammar yields the sum of its groups. -/
theorem decodeLoop_numeral (m h t u : Nat) (hm : m ≤ 3) (hh : h < 10) (ht : t < 10)
    (hu : u < 10) :
    decodeLoop (numeral m h t u) 0 = 1000 * (m : Int) + 100 * h + 10 * t + u := by
  have e1 := head_units u hu
  have e2 := head_tens t ht _ e1
  have e3 := head_hundreds h hh _ e2
  rw [decodeLoop_eq_decodeWith, numeral, decodeWith_append_zero, decodeWith_append_zero,
    decodeWith_append_zero, headOr_append, headOr_append,
    decode_thousands m (by omega) _ e3, decode_hundreds h hh _ e2, decode_tens t ht _ e1,
    decode_units u hu]
  omega


/-! ## The greedy loop of arabicToRoman -/

theorem whileLoop_eq (valor : Nat) (simbolo : List Char) (hv : 0 < valor) :
    ∀ (fuel : Nat) (resultado : List Char) (restante : Nat), restante / valor ≤ fuel →
      whileLoop valor simbolo fuel (resultado, restante) =
        some (stepEntry (resultado, restante) (valor, simbolo)) := by
  intro fuel
  induction fuel with
  | zero =>
    intro resultado restante hq
    have hlt : restante < valor := by
      have h0 : restante / valor = 0 := Nat.le_zero.mp hq
      by_contra hge
      have := Nat.div_pos (Nat.not_lt.mp hge) hv
      omega
    simp [whileLoop, stepEntry, Nat.not_le.mpr hlt, Nat.div_eq_of_lt hlt, Nat.mod_eq_of_lt hlt]
  | succ fuel ih =>
    intro resultado restante hq
    by_cases hge : restante ≥ valor
    · have hdiv : restante / valor = (restante - valor) / valor + 1 := by
        rw [Nat.div_eq restante valor, if_pos ⟨hv, hge⟩]
      have hmod : restante % valor = (restante - valor) % valor := by
        rw [Nat.mod_eq_sub_mod hge]
      rw [whileLoop, if_pos hge, ih _ _ (by omega)]
      simp [stepEntry, hdiv, hmod, List.replicate_succ]
    · have hlt : restante < valor := Nat.not_le.mp hge
      rw [whileLoop, if_neg hge]
      simp [stepEntry, Nat.div_eq_of_lt hlt, Nat.mod_eq_of_lt hlt]

theorem forLoop_eq :
    ∀ (tabla : List (Nat × List Char)), (∀ e ∈ tabla, 0 < e.1) →
      ∀ (fuel : Nat) (st : List Char × Nat), st.2 ≤ fuel →
        forLoop tabla fuel st = some (tabla.foldl stepEntry st) := by
  intro tabla
  induction tabla with
  | nil => intro _ fuel st _; rfl
  | cons e tabla ih =>
    intro hpos fuel st hfuel
    obtain ⟨valor, simbolo⟩ := e
    obtain ⟨resultado, restante⟩ := st
    have hv : 0 < valor := hpos (valor, simbolo) (by simp)
    have hq : restante / valor ≤ fuel := Nat.le_trans (Nat.div_le_self _ _) hfuel
    rw [forLoop, whileLoop_eq valor simbolo hv fuel resultado restante hq]
    simp only [List.foldl_cons]
    apply ih (fun e he => hpos e (List.mem_cons_of_mem _ he))
    exact Nat.le_trans (Nat.mod_le _ _) hfuel

theorem foldl_stepEntry_acc (tabla : List (Nat × List Char)) :
    ∀ (resultado : List Char) (restante : Nat),
      tabla.foldl stepEntry (resultado, restante) =
        (resultado ++ (tabla.foldl stepEntry ([], restante)).1,
          (tabla.foldl stepEntry ([], restante)).2) := by
  induction tabla with
  | nil => intro resultado restante; simp
  | cons e tabla ih =>
    intro resultado restante
    simp only [List.foldl_cons, stepEntry]
    rw [ih, ih ([] ++ _)]
    simp

set_option maxRecDepth 100000 in
theorem steps_hundreds :
    ∀ r < 1000, [(900, ['C', 'M']), (500, ['D']), (400, ['C', 'D']), (100, ['C'])].foldl
      stepEntry ([], r) = (digitGroup 'C' 'D' 'M' (r / 100), r % 100) := by
  decide!

theorem steps_tens :
    ∀ r < 100, [(90, ['X', 'C']), (50, ['L']), (40, ['X', 'L']), (10, ['X'])].foldl
      stepEntry ([], r) = (digitGroup 'X' 'L' 'C' (r / 10), r % 10) := by
  decide

theorem steps_units :
    ∀ r < 10, [(9, ['I', 'X']), (5, ['V']), (4, ['I', 'V']), (1, ['I'])].foldl
      stepEntry ([], r) = (digitGroup 'I' 'V' 'X' r, 0) := by
  decide


theorem flatten_replicate_singleton (m : Nat) (c : Char) :
    (List.replicate m [c]).flatten = List.replicate m c := by
  induction m with
  | zero => rfl
  | succ m ih => simp [List.replicate_succ, ih]

theorem foldl_conversiones (n : Nat) :
    conversiones.foldl stepEntry ([], n) = (canonical n, 0) := by
  have hsplit : conversiones =
      (1000, ['M']) :: ([(900, ['C', 'M']), (500, ['D']), (400, ['C', 'D']), (100, ['C'])] ++
        ([(90, ['X', 'C']), (50, ['L']), (40, ['X', 'L']), (10, ['X'])] ++
          [(9, ['I', 'X']), (5, ['V']), (4, ['I', 'V']), (1, ['I'])])) := rfl
  have h1 : n % 1000 < 1000 := Nat.mod_lt _ (by decide)
  have h2 : n % 1000 % 100 < 100 := Nat.mod_lt _ (by decide)
  have h3 : n % 1000 % 100 % 10 < 10 := Nat.mod_lt _ (by decide)
  have e1 : n % 1000 / 100 = n / 100 % 10 := by omega
  have e2 : n % 1000 % 100 / 10 = n / 10 % 10 := by omega
  have e3 : n % 1000 % 100 % 10 = n % 10 := by omega
  rw [hsplit, List.foldl_cons, List.foldl_append, List.foldl_append]
  simp only [stepEntry, List.nil_append, flatten_replicate_singleton]
  have hH : ∀ res : List Char,
      [(900, ['C', 'M']), (500, ['D']), (400, ['C', 'D']), (100, ['C'])].foldl stepEntry
        (res, n % 1000) = (res ++ digitGroup 'C' 'D' 'M' (n / 100 % 10), n % 1000 % 100) := by
    intro res
    rw [foldl_stepEntry_acc, steps_hundreds _ h1, e1]
  have hT : ∀ res : List Char,
      [(90, ['X', 'C']), (50, ['L']), (40, ['X', 'L']), (10, ['X'])].foldl stepEntry
        (res, n % 1000 % 100) =
          (res ++ digitGroup 'X' 'L' 'C' (n / 10 % 10), n % 1000 % 100 % 10) := by
    intro res
    rw [foldl_stepEntry_acc, steps_tens _ h2, e2]
  have hU : ∀ res : List Char,
      [(9, ['I', 'X']), (5, ['V']), (4, ['I', 'V']), (1, ['I'])].foldl stepEntry
        (res, n % 1000 % 100 % 10) = (res ++ digitGroup 'I' 'V' 'X' (n % 10), 0) := by
    intro res
    rw [foldl_stepEntry_acc, steps_units _ h3, e3]
  rw [hH, hT, hU]
  simp only [canonical, numeral, List.append_assoc]

/-- The loops of `arabicToRoman` end within the fuel given and leave the canonical numeral
in `resultado`. -/
theorem greedy_eq (n : Nat) : greedy n = some (canonical n) := by
  have hpos : ∀ e ∈ conversiones, 0 < e.1 := by decide
  rw [greedy, forLoop_eq conversiones hpos n ([], n) (Nat.le_refl n), foldl_conversiones]
  rfl

theorem greedy_isSome (n : Nat) : (greedy n).isSome = true := by
  rw [greedy_eq]
  rfl

/-- The loops of `arabicToRoman` never run out of fuel. -/
theorem arabicToRoman_ne_ok_none (v : JsValue) : arabicToRoman v ≠ .ok none := by
  simp only [arabicToRoman]
  split_ifs
  · simp
  · split
    · simp
    · split_ifs
      · simp
      · simp [greedy_eq]


/-! ## Runtime string functions on numerals and digit strings -/

theorem isRomanChar_iff (c : Char) :
    isRomanChar c = true ↔
      c = 'I' ∨ c = 'V' ∨ c = 'X' ∨ c = 'L' ∨ c = 'C' ∨ c = 'D' ∨ c = 'M' := by
  simp [isRomanChar, or_assoc]

theorem valores_isSome (c : Char) (h : isRomanChar c = true) : (valores c).isSome = true := by
  rcases (isRomanChar_iff c).mp h with h | h | h | h | h | h | h <;> subst h <;> decide

theorem toUpperChar_roman (c : Char) (h : isRomanChar c = true) : toUpperChar c = [c] := by
  rcases (isRomanChar_iff c).mp h with h | h | h | h | h | h | h <;> subst h <;> decide

theorem not_whitespace_of_roman (c : Char) (h : isRomanChar c = true) :
    isJsWhitespace c = false := by
  rcases (isRomanChar_iff c).mp h with h | h | h | h | h | h | h <;> subst h <;> decide

theorem toUpperCase_roman (s : List Char) (h : ∀ c ∈ s, isRomanChar c = true) :
    toUpperCase s = s := by
  induction s with
  | nil => rfl
  | cons c s ih =>
    have hc := toUpperChar_roman c (h c (by simp))
    have hs := ih (fun d hd => h d (List.mem_cons_of_mem _ hd))
    simp only [toUpperCase, List.flatMap_cons] at hs ⊢
    rw [hc, hs]
    rfl

theorem dropWhile_eq_self (p : Char → Bool) (s : List Char) (h : ∀ c ∈ s, p c = false) :
    s.dropWhile p = s := by
  cases s with
  | nil => rfl
  | cons c s => simp [List.dropWhile, h c (by simp)]

theorem trim_eq_self (s : List Char) (h : ∀ c ∈ s, isJsWhitespace c = false) : trim s = s := by
  unfold trim
  rw [dropWhile_eq_self _ s h, dropWhile_eq_self _ s.reverse (fun c hc => h c (by simpa using hc))]
  simp

theorem mem_digitGroup (a b c : Char) (d : Nat) (x : Char) (hx : x ∈ digitGroup a b c d) :
    x = a ∨ x = b ∨ x = c := by
  unfold digitGroup at hx
  split at hx <;> simp at hx <;> tauto

theorem isRomanChar_of_mem_numeral (m h t u : Nat) (x : Char) (hx : x ∈ numeral m h t u) :
    isRomanChar x = true := by
  simp only [numeral, List.mem_append, List.mem_replicate] at hx
  rcases hx with hx | hx | hx | hx
  · rw [hx.2]; decide
  · rcases mem_digitGroup _ _ _ _ _ hx with h | h | h <;> subst h <;> decide
  · rcases mem_digitGroup _ _ _ _ _ hx with h | h | h <;> subst h <;> decide
  · rcases mem_digitGroup _ _ _ _ _ hx with h | h | h <;> subst h <;> decide

theorem test_charPattern (s : List Char) :
    charPattern.test s = true ↔ s ≠ [] ∧ ∀ c ∈ s, isRomanChar c = true := by
  rw [Re.test_iff, charPattern, lang_plus_cls]

theorem test_digitPattern (s : List Char) :
    digitPattern.test s = true ↔ s ≠ [] ∧ ∀ c ∈ s, isDigit c = true := by
  rw [Re.test_iff, digitPattern, lang_plus_cls]

theorem test_validPattern (s : List Char) :
    validPattern.test s = true ↔
      ∃ m h t u, m ≤ 3 ∧ h < 10 ∧ t < 10 ∧ u < 10 ∧ s = numeral m h t u := by
  rw [Re.test_iff, lang_validPattern]


/-! ## romanToArabic, stage by stage -/

theorem numeral_zero : numeral 0 0 0 0 = [] := rfl

/-- A string that passes the character check and the grammar check decodes into `[1, 3999]`. -/
theorem decodeLoop_range (r : List Char) (hc : charPattern.test r = true)
    (hv : validPattern.test r = true) :
    1 ≤ decodeLoop r 0 ∧ decodeLoop r 0 ≤ 3999 := by
  obtain ⟨m, h, t, u, hm, hh, ht, hu, hr⟩ := (test_validPattern r).mp hv
  have hne : r ≠ [] := ((test_charPattern r).mp hc).1
  rw [hr, decodeLoop_numeral m h t u hm hh ht hu]
  have hpos : ¬ (m = 0 ∧ h = 0 ∧ t = 0 ∧ u = 0) := by
    rintro ⟨rfl, rfl, rfl, rfl⟩
    exact hne hr
  omega

theorem romanToArabic_str (s : List Char) (hs : s ≠ []) :
    romanToArabic (.str s) =
      if charPattern.test (trim (toUpperCase s)) = false then .error .InvalidCharacters
      else if validPattern.test (trim (toUpperCase s)) = false then .error .InvalidGrammar
      else .ok (decodeLoop (trim (toUpperCase s)) 0) := by
  cases s with
  | nil => exact absurd rfl hs
  | cons c cs =>
    simp only [romanToArabic]
    by_cases hc : charPattern.test (trim (toUpperCase (c :: cs))) = true
    · by_cases hv : validPattern.test (trim (toUpperCase (c :: cs))) = true
      · have hr := decodeLoop_range _ hc hv
        have h1 : ¬ decodeLoop (trim (toUpperCase (c :: cs))) 0 < 1 := by omega
        have h2 : ¬ decodeLoop (trim (toUpperCase (c :: cs))) 0 > 3999 := by omega
        simp [hc, hv, h1, h2]
      · simp [hc, hv]
    · simp [hc]

theorem romanToArabic_not_str (v : JsValue) (h : ∀ s, s ≠ [] → v ≠ .str s) :
    romanToArabic v = .error .InvalidInput := by
  cases v with
  | str s =>
    cases s with
    | nil => rfl
    | cons c cs => exact absurd rfl (h (c :: cs) (by simp))
  | _ => rfl

/-- Success of `romanToArabic`, unfolded: the input is a non-empty string whose normalised
form is a numeral of the grammar, not all of whose digits are zero, and the result is the
number with those digits. -/
theorem romanToArabic_ok_iff (v : JsValue) (n : Int) :
    romanToArabic v = .ok n ↔
      ∃ s, v = .str s ∧ ∃ m h t u, m ≤ 3 ∧ h < 10 ∧ t < 10 ∧ u < 10 ∧
        trim (toUpperCase s) = numeral m h t u ∧ trim (toUpperCase s) ≠ [] ∧
        n = 1000 * (m : Int) + 100 * h + 10 * t + u := by
  constructor
  · intro hok
    by_cases hstr : ∃ s, s ≠ [] ∧ v = .str s
    · obtain ⟨s, hs, rfl⟩ := hstr
      rw [romanToArabic_str s hs] at hok
      by_cases hc : charPattern.test (trim (toUpperCase s)) = true
      · by_cases hv : validPattern.test (trim (toUpperCase s)) = true
        · simp only [hc, hv, Bool.true_eq_false, if_false, Except.ok.injEq] at hok
          obtain ⟨m, h, t, u, hm, hh, ht, hu, hr⟩ := (test_validPattern _).mp hv
          refine ⟨s, rfl, m, h, t, u, hm, hh, ht, hu, hr, ((test_charPattern _).mp hc).1, ?_⟩
          rw [← hok, hr, decodeLoop_numeral m h t u hm hh ht hu]
        · simp [hc, hv] at hok
      · simp [hc] at hok
    · rw [romanToArabic_not_str v (fun s hs hv => hstr ⟨s, hs, hv⟩)] at hok
      simp at hok
  · rintro ⟨s, rfl, m, h, t, u, hm, hh, ht, hu, hr, hne, hn⟩
    have hs : s ≠ [] := by
      rintro rfl
      exact hne rfl
    have hc : charPattern.test (trim (toUpperCase s)) = true := by
      rw [test_charPattern]
      refine ⟨hne, ?_⟩
      rw [hr]
      exact isRomanChar_of_mem_numeral m h t u
    have hv : validPattern.test (trim (toUpperCase s)) = true :=
      (test_validPattern _).mpr ⟨m, h, t, u, hm, hh, ht, hu, hr⟩
    rw [romanToArabic_str s hs]
    simp only [hc, hv, Bool.true_eq_false, if_false, Except.ok.injEq]
    rw [hn, hr, decodeLoop_numeral m h t u hm hh ht hu]


/-! ## Decimal text -/

theorem digitChar_spec :
    ∀ d < 10, isDigit (Nat.digitChar d) = true ∧ digitValue (Nat.digitChar d) = d := by
  decide

theorem not_whitespace_of_digit (c : Char) (h : isDigit c = true) :
    isJsWhitespace c = false := by
  simp only [isDigit, Bool.and_eq_true, decide_eq_true_eq] at h
  simp only [isJsWhitespace, Bool.or_eq_false_iff, Bool.and_eq_false_iff, beq_eq_false_iff_ne,
    decide_eq_false_iff_not, ne_eq]
  omega

theorem toDigitsCore_append (fuel : Nat) :
    ∀ (n : Nat) (acc : List Char),
      Nat.toDigitsCore 10 fuel n acc = Nat.toDigitsCore 10 fuel n [] ++ acc := by
  induction fuel with
  | zero => intro n acc; rfl
  | succ fuel ih =>
    intro n acc
    simp only [Nat.toDigitsCore]
    split
    · rfl
    · rw [ih (n / 10) (_ :: acc), ih (n / 10) [_]]
      simp

theorem parseDigits_append (xs ys : List Char) (h : ∀ c ∈ xs, isDigit c = true) :
    ∀ acc, parseDigits (xs ++ ys) acc = parseDigits ys (parseDigits xs acc) := by
  induction xs with
  | nil => intro acc; rfl
  | cons x xs ih =>
    intro acc
    have hx : isDigit x = true := h x (by simp)
    simp only [List.cons_append, parseDigits, hx, if_true]
    exact ih (fun c hc => h c (List.mem_cons_of_mem _ hc)) _

theorem toDigitsCore_spec (fuel : Nat) :
    ∀ (n : Nat), n < fuel →
      Nat.toDigitsCore 10 fuel n [] ≠ [] ∧
      (∀ c ∈ Nat.toDigitsCore 10 fuel n [], isDigit c = true) ∧
      parseDigits (Nat.toDigitsCore 10 fuel n []) 0 = n := by
  induction fuel with
  | zero => intro n hn; omega
  | succ fuel ih =>
    intro n hn
    have hd := digitChar_spec (n % 10) (Nat.mod_lt _ (by decide))
    simp only [Nat.toDigitsCore]
    split
    · rename_i h0
      refine ⟨by simp, by simpa using hd.1, ?_⟩
      simp only [parseDigits, hd.1, if_true, hd.2]
      omega
    · rename_i h0
      obtain ⟨_, hall, hval⟩ := ih (n / 10) (by omega)
      rw [toDigitsCore_append]
      refine ⟨by simp, ?_, ?_⟩
      · intro c hc
        rcases List.mem_append.mp hc with hc | hc
        · exact hall c hc
        · simp at hc
          exact hc ▸ hd.1
      · rw [parseDigits_append _ _ hall, hval]
        simp only [parseDigits, hd.1, if_true, hd.2]
        omega

/-- The decimal text of a natural number is a non-empty digit string that reads back as the
number. -/
theorem natToString_spec (n : Nat) :
    natToString n ≠ [] ∧ (∀ c ∈ natToString n, isDigit c = true) ∧
      parseDigits (natToString n) 0 = n :=
  toDigitsCore_spec (n + 1) n (Nat.lt_succ_self n)

theorem parseInt10_digits (ds : List Char) (hne : ds ≠ [])
    (hall : ∀ c ∈ ds, isDigit c = true) : parseInt10 ds = some (parseDigits ds 0 : Int) := by
  cases ds with
  | nil => exact absurd rfl hne
  | cons d cs =>
    have hd : isDigit d = true := hall d (by simp)
    have hw : isJsWhitespace d = false := not_whitespace_of_digit d hd
    have hminus : d ≠ '-' := by rintro rfl; simp [isDigit] at hd
    have hplus : d ≠ '+' := by rintro rfl; simp [isDigit] at hd
    unfold parseInt10
    simp only [List.dropWhile, hw]
    rw [if_pos hd]

/-- The function `arabicToRoman` on an input whose trimmed text is a non-empty digit string. -/
theorem arabicToRoman_digits (v : JsValue) (hne : trim (toStringJs v) ≠ [])
    (hall : ∀ c ∈ trim (toStringJs v), isDigit c = true) :
    arabicToRoman v =
      if parseDigits (trim (toStringJs v)) 0 < 1 ∨ 3999 < parseDigits (trim (toStringJs v)) 0
      then .error .OutOfRange
      else .ok (some (canonical (parseDigits (trim (toStringJs v)) 0))) := by
  have ht : digitPattern.test (trim (toStringJs v)) = true :=
    (test_digitPattern _).mpr ⟨hne, hall⟩
  unfold arabicToRoman
  simp only [ht, Bool.not_true, Bool.false_eq_true, if_false, parseInt10_digits _ hne hall]
  by_cases hr : parseDigits (trim (toStringJs v)) 0 < 1 ∨
      3999 < parseDigits (trim (toStringJs v)) 0
  · have hL : (decide (((parseDigits (trim (toStringJs v)) 0 : Nat) : Int) < 1) ||
        decide (((parseDigits (trim (toStringJs v)) 0 : Nat) : Int) > 3999)) = true := by
      simp only [Bool.or_eq_true, decide_eq_true_eq]
      omega
    rw [if_pos hL, if_pos hr]
  · have hL : ¬ (decide (((parseDigits (trim (toStringJs v)) 0 : Nat) : Int) < 1) ||
        decide (((parseDigits (trim (toStringJs v)) 0 : Nat) : Int) > 3999)) = true := by
      simp only [Bool.or_eq_true, decide_eq_true_eq]
      omega
    rw [if_neg hL, if_neg hr, Int.toNat_ofNat, greedy_eq]

theorem toStringJs_num (n : Nat) (hn : n < 1000000000000000000000) :
    toStringJs (.num (n : Int)) = natToString n := by
  show integerText n = natToString n
  rw [integerText, if_pos hn]

/-- The function `arabicToRoman` on a Number argument that is a natural number below
`10^21`. -/
theorem arabicToRoman_num (n : Nat) (hn : n < 1000000000000000000000) :
    arabicToRoman (.num (n : Int)) =
      if n < 1 ∨ 3999 < n then .error .OutOfRange else .ok (some (canonical n)) := by
  obtain ⟨hne, hall, hval⟩ := natToString_spec n
  have htrim : trim (toStringJs (.num (n : Int))) = natToString n := by
    rw [toStringJs_num n hn]
    exact trim_eq_self _ (fun c hc => not_whitespace_of_digit c (hall c hc))
  have := arabicToRoman_digits (.num (n : Int)) (by rw [htrim]; exact hne)
    (by rw [htrim]; exact hall)
  rw [this, htrim, hval]


/-! ## Round trips -/

theorem normalise_numeral (m h t u : Nat) :
    trim (toUpperCase (numeral m h t u)) = numeral m h t u := by
  rw [toUpperCase_roman _ (isRomanChar_of_mem_numeral m h t u)]
  exact trim_eq_self _
    (fun c hc => not_whitespace_of_roman c (isRomanChar_of_mem_numeral m h t u c hc))

theorem numeral_ne_nil (m h t u : Nat) (hm : m ≤ 3) (hh : h < 10) (ht : t < 10) (hu : u < 10)
    (hpos : 0 < 1000 * m + 100 * h + 10 * t + u) : numeral m h t u ≠ [] := by
  intro hnil
  have hd := decodeLoop_numeral m h t u hm hh ht hu
  rw [hnil] at hd
  simp only [decodeLoop] at hd
  omega

theorem romanToArabic_numeral (m h t u : Nat) (hm : m ≤ 3) (hh : h < 10) (ht : t < 10)
    (hu : u < 10) (hpos : 0 < 1000 * m + 100 * h + 10 * t + u) :
    romanToArabic (.str (numeral m h t u)) = .ok (1000 * (m : Int) + 100 * h + 10 * t + u) := by
  rw [romanToArabic_ok_iff]
  refine ⟨_, rfl, m, h, t, u, hm, hh, ht, hu, normalise_numeral m h t u, ?_, rfl⟩
  rw [normalise_numeral]
  exact numeral_ne_nil m h t u hm hh ht hu hpos

theorem romanToArabic_canonical (n : Nat) (h1 : 1 ≤ n) (h2 : n ≤ 3999) :
    romanToArabic (.str (canonical n)) = .ok (n : Int) := by
  have hm : n / 1000 ≤ 3 := by omega
  have hh : n / 100 % 10 < 10 := Nat.mod_lt _ (by decide)
  have ht : n / 10 % 10 < 10 := Nat.mod_lt _ (by decide)
  have hu : n % 10 < 10 := Nat.mod_lt _ (by decide)
  rw [canonical, romanToArabic_numeral _ _ _ _ hm hh ht hu (by omega)]
  congr 1
  omega

theorem canonical_digits (m h t u : Nat) (hh : h < 10) (ht : t < 10) (hu : u < 10) :
    canonical (1000 * m + 100 * h + 10 * t + u) = numeral m h t u := by
  unfold canonical
  congr 1 <;> omega

/-- C1. Round trip: for every integer `n` with `1 ≤ n ≤ 3999`, `arabicToRoman(n)` returns a
numeral `r` (the loops end) and `romanToArabic(r)` returns `n`. -/
theorem arabicToRoman_romanToArabic_roundtrip (n : Int) (h1 : 1 ≤ n) (h2 : n ≤ 3999) :
    ∃ r, arabicToRoman (.num n) = .ok (some r) ∧ romanToArabic (.str r) = .ok n := by
  obtain ⟨k, rfl⟩ := Int.eq_ofNat_of_zero_le (by omega : 0 ≤ n)
  have hk1 : 1 ≤ k := by omega
  have hk2 : k ≤ 3999 := by omega
  refine ⟨canonical k, ?_, romanToArabic_canonical k hk1 hk2⟩
  rw [arabicToRoman_num _ (by omega), if_neg (by omega)]

theorem arabicToRoman_romanToArabic_roundtrip_witness :
    (1 : Int) ≤ 1994 ∧ (1994 : Int) ≤ 3999 ∧
      ∃ r, arabicToRoman (.num 1994) = .ok (some r) ∧ romanToArabic (.str r) = .ok 1994 :=
  ⟨by decide, by decide, arabicToRoman_romanToArabic_roundtrip 1994 (by decide) (by decide)⟩

/-- C2. Reverse round trip: when `romanToArabic` accepts `v` and `w` with the same result `n`,
both are strings, `arabicToRoman(n)` returns the first string upper-cased and trimmed, the two
strings have the same normalised form, and if the second is already normalised it is exactly
what `arabicToRoman(n)` returns. -/
theorem romanToArabic_arabicToRoman_roundtrip (v w : JsValue) (n : Int)
    (hv : romanToArabic v = .ok n) (hw : romanToArabic w = .ok n) :
    ∃ s t, v = .str s ∧ w = .str t ∧
      arabicToRoman (.num n) = .ok (some (trim (toUpperCase s))) ∧
      trim (toUpperCase s) = trim (toUpperCase t) ∧
      (trim (toUpperCase t) = t → arabicToRoman (.num n) = .ok (some t)) := by
  obtain ⟨s, rfl, m, h, t, u, hm, hh, ht, hu, hs, hne, hn⟩ := (romanToArabic_ok_iff v n).mp hv
  obtain ⟨s2, rfl, m2, h2, t2, u2, hm2, hh2, ht2, hu2, hs2, _, hn2⟩ :=
    (romanToArabic_ok_iff w n).mp hw
  have hpos : 0 < 1000 * m + 100 * h + 10 * t + u := by
    rcases Nat.eq_zero_or_pos (1000 * m + 100 * h + 10 * t + u) with h0 | h0
    · have : m = 0 ∧ h = 0 ∧ t = 0 ∧ u = 0 := by omega
      obtain ⟨rfl, rfl, rfl, rfl⟩ := this
      exact absurd hs hne
    · exact h0
  have hdig : m2 = m ∧ h2 = h ∧ t2 = t ∧ u2 = u := by omega
  obtain ⟨rfl, rfl, rfl, rfl⟩ := hdig
  have hcast : n = ((1000 * m2 + 100 * h2 + 10 * t2 + u2 : Nat) : Int) := by
    rw [hn]; push_cast; ring
  have key : arabicToRoman (.num n) = .ok (some (trim (toUpperCase s))) := by
    rw [hcast, arabicToRoman_num _ (by omega), if_neg (by omega), canonical_digits m2 h2 t2 u2 hh ht hu, hs]
  refine ⟨s, s2, rfl, rfl, key, by rw [hs, hs2], ?_⟩
  intro hnorm
  rw [key, hs, ← hs2, hnorm]

theorem romanToArabic_arabicToRoman_roundtrip_witness :
    romanToArabic (.str [' ', 'x', 'i', 'v', ' ']) = .ok 14 ∧
      romanToArabic (.str ['X', 'I', 'V']) = .ok 14 ∧
      ∃ s t, JsValue.str [' ', 'x', 'i', 'v', ' '] = .str s ∧ JsValue.str ['X', 'I', 'V'] = .str t ∧
        arabicToRoman (.num 14) = .ok (some (trim (toUpperCase s))) ∧
        trim (toUpperCase s) = trim (toUpperCase t) ∧
        (trim (toUpperCase t) = t → arabicToRoman (.num 14) = .ok (some t)) :=
  ⟨by decide, by decide,
    romanToArabic_arabicToRoman_roundtrip _ _ 14 (by decide) (by decide)⟩


/-! ## The canonical numeral and the grammar -/

theorem lang_canonical (n : Nat) (h2 : n ≤ 3999) : validPattern.Lang (canonical n) :=
  (lang_validPattern _).mpr
    ⟨n / 1000, n / 100 % 10, n / 10 % 10, n % 10, by omega, Nat.mod_lt _ (by decide),
      Nat.mod_lt _ (by decide), Nat.mod_lt _ (by decide), rfl⟩

/-- C3. For every integer `n` with `1 ≤ n ≤ 3999` the greedy loop of `arabicToRoman` ends and
returns the canonical numeral: `n / 1000` copies of `M`, then the groups of the hundreds digit
over `(C, D, M)`, of the tens digit over `(X, L, C)` and of the units digit over `(I, V, X)`,
the groups of the digits 0..9 being `''`, `a`, `aa`, `aaa`, `ab`, `b`, `ba`, `baa`, `baaa`,
`ac`; the result matches `validPattern` as a whole string. -/
theorem arabicToRoman_canonical (n : Nat) (h1 : 1 ≤ n) (h2 : n ≤ 3999) :
    arabicToRoman (.num (n : Int)) = .ok (some (canonical n)) ∧
    greedy n = some (canonical n) ∧
    canonical n = List.replicate (n / 1000) 'M' ++ (digitGroup 'C' 'D' 'M' (n / 100 % 10) ++
      (digitGroup 'X' 'L' 'C' (n / 10 % 10) ++ digitGroup 'I' 'V' 'X' (n % 10))) ∧
    (∀ a b c : Char, (List.range 10).map (digitGroup a b c) =
      [[], [a], [a, a], [a, a, a], [a, b], [b], [b, a], [b, a, a], [b, a, a, a], [a, c]]) ∧
    validPattern.Lang (canonical n) ∧ validPattern.test (canonical n) = true := by
  refine ⟨?_, greedy_eq n, rfl, fun a b c => rfl, lang_canonical n h2,
    (Re.test_iff _ _).mpr (lang_canonical n h2)⟩
  rw [arabicToRoman_num _ (by omega), if_neg (by omega)]

theorem arabicToRoman_canonical_witness :
    arabicToRoman (.num ((1994 : Nat) : Int)) = .ok (some (canonical 1994)) ∧
    canonical 1994 = ['M', 'C', 'M', 'X', 'C', 'I', 'V'] :=
  ⟨(arabicToRoman_canonical 1994 (by decide) (by decide)).1, by decide⟩

theorem groupValue_hundreds :
    ∀ d < 10, groupValue 'C' 'D' 'M' 100 (digitGroup 'C' 'D' 'M' d) = 100 * (d : Int) := by
  decide

theorem groupValue_tens :
    ∀ d < 10, groupValue 'X' 'L' 'C' 10 (digitGroup 'X' 'L' 'C' d) = 10 * (d : Int) := by
  decide

theorem groupValue_units :
    ∀ d < 10, groupValue 'I' 'V' 'X' 1 (digitGroup 'I' 'V' 'X' d) = (d : Int) := by
  decide

/-- C4. For every non-empty string over `I,V,X,L,C,D,M` that matches the grammar, the string
splits into at most three `M`, a hundreds group, a tens group and a units group, and for every
such split the decoding loop of `romanToArabic` returns 1000 times the number of leading `M`
plus the values of the three groups (`CM` = 900, `CD` = 400, `D?C{0,3}` = 500 per `D` plus 100
per `C`, likewise for tens and units); `romanToArabic` returns that sum. -/
theorem decodeLoop_grammar (s : List Char) (hne : s ≠ [])
    (_hchars : ∀ c ∈ s, isRomanChar c = true) (hg : validPattern.test s = true) :
    (∃ m gh gt gu, m ≤ 3 ∧ (groupPattern 'C' 'D' 'M').Lang gh ∧
      (groupPattern 'X' 'L' 'C').Lang gt ∧ (groupPattern 'I' 'V' 'X').Lang gu ∧
      s = List.replicate m 'M' ++ (gh ++ (gt ++ gu))) ∧
    ∀ m gh gt gu, m ≤ 3 → (groupPattern 'C' 'D' 'M').Lang gh →
      (groupPattern 'X' 'L' 'C').Lang gt → (groupPattern 'I' 'V' 'X').Lang gu →
      s = List.replicate m 'M' ++ (gh ++ (gt ++ gu)) →
      decodeLoop s 0 = 1000 * (m : Int) + groupValue 'C' 'D' 'M' 100 gh +
        groupValue 'X' 'L' 'C' 10 gt + groupValue 'I' 'V' 'X' 1 gu ∧
      romanToArabic (.str s) = .ok (1000 * (m : Int) + groupValue 'C' 'D' 'M' 100 gh +
        groupValue 'X' 'L' 'C' 10 gt + groupValue 'I' 'V' 'X' 1 gu) := by
  constructor
  · obtain ⟨m, h, t, u, hm, hh, ht, hu, hs⟩ := (test_validPattern s).mp hg
    exact ⟨m, _, _, _, hm, (lang_groupPattern _ _ _ _).mpr ⟨h, hh, rfl⟩,
      (lang_groupPattern _ _ _ _).mpr ⟨t, ht, rfl⟩,
      (lang_groupPattern _ _ _ _).mpr ⟨u, hu, rfl⟩, hs⟩
  · intro m gh gt gu hm hgh hgt hgu hs
    obtain ⟨h, hh, rfl⟩ := (lang_groupPattern _ _ _ _).mp hgh
    obtain ⟨t, ht, rfl⟩ := (lang_groupPattern _ _ _ _).mp hgt
    obtain ⟨u, hu, rfl⟩ := (lang_groupPattern _ _ _ _).mp hgu
    have hs2 : s = numeral m h t u := hs
    have hpos : 0 < 1000 * m + 100 * h + 10 * t + u := by
      rcases Nat.eq_zero_or_pos (1000 * m + 100 * h + 10 * t + u) with h0 | h0
      · have : m = 0 ∧ h = 0 ∧ t = 0 ∧ u = 0 := by omega
        obtain ⟨rfl, rfl, rfl, rfl⟩ := this
        exact absurd hs2 hne
      · exact h0
    rw [groupValue_hundreds h hh, groupValue_tens t ht, groupValue_units u hu, hs2]
    exact ⟨decodeLoop_numeral m h t u hm hh ht hu, romanToArabic_numeral m h t u hm hh ht hu hpos⟩

theorem decodeLoop_grammar_witness :
    decodeLoop ['M', 'C', 'M', 'X', 'C', 'I', 'V'] 0 =
        1000 * ((1 : Nat) : Int) + groupValue 'C' 'D' 'M' 100 ['C', 'M'] +
          groupValue 'X' 'L' 'C' 10 ['X', 'C'] + groupValue 'I' 'V' 'X' 1 ['I', 'V'] ∧
      romanToArabic (.str ['M', 'C', 'M', 'X', 'C', 'I', 'V']) =
        .ok (1000 * ((1 : Nat) : Int) + groupValue 'C' 'D' 'M' 100 ['C', 'M'] +
          groupValue 'X' 'L' 'C' 10 ['X', 'C'] + groupValue 'I' 'V' 'X' 1 ['I', 'V']) :=
  (decodeLoop_grammar ['M', 'C', 'M', 'X', 'C', 'I', 'V'] (by decide) (by decide) (by decide)).2
    1 ['C', 'M'] ['X', 'C'] ['I', 'V'] (by decide)
    ((lang_groupPattern _ _ _ _).mpr ⟨9, by decide, rfl⟩)
    ((lang_groupPattern _ _ _ _).mpr ⟨9, by decide, rfl⟩)
    ((lang_groupPattern _ _ _ _).mpr ⟨4, by decide, rfl⟩) rfl

/-- C5. The range error of `romanToArabic` is unreachable: no input yields it, and a string
whose normalised form passes the character check and the grammar check decodes to a total in
`[1, 3999]`, which is returned. The lower bound rests on the character check: the empty string
matches the grammar pattern and decodes to 0, and the character check rejects it. -/
theorem romanToArabic_range_unreachable (v : JsValue) :
    romanToArabic v ≠ .error .RomanOutOfRange ∧
    (∀ s, v = .str s → charPattern.test (trim (toUpperCase s)) = true →
      validPattern.test (trim (toUpperCase s)) = true →
      1 ≤ decodeLoop (trim (toUpperCase s)) 0 ∧ decodeLoop (trim (toUpperCase s)) 0 ≤ 3999 ∧
        romanToArabic v = .ok (decodeLoop (trim (toUpperCase s)) 0)) ∧
    (validPattern.test [] = true ∧ decodeLoop [] 0 = 0 ∧ charPattern.test [] = false) := by
  refine ⟨?_, ?_, by decide, by decide, by decide⟩
  · by_cases hstr : ∃ s, s ≠ [] ∧ v = .str s
    · obtain ⟨s, hs, rfl⟩ := hstr
      rw [romanToArabic_str s hs]
      split_ifs <;> simp
    · rw [romanToArabic_not_str v (fun s hs hv => hstr ⟨s, hs, hv⟩)]
      simp
  · rintro s rfl hc hv
    have hs : s ≠ [] := by
      rintro rfl
      revert hc
      decide
    have hr := decodeLoop_range _ hc hv
    refine ⟨hr.1, hr.2, ?_⟩
    rw [romanToArabic_str s hs]
    simp [hc, hv]

theorem romanToArabic_range_unreachable_witness :
    1 ≤ decodeLoop (trim (toUpperCase ['m', 'm', 'm', 'c', 'm', 'x', 'c', 'i', 'x'])) 0 ∧
      decodeLoop (trim (toUpperCase ['m', 'm', 'm', 'c', 'm', 'x', 'c', 'i', 'x'])) 0 ≤ 3999 ∧
      romanToArabic (.str ['m', 'm', 'm', 'c', 'm', 'x', 'c', 'i', 'x']) =
        .ok (decodeLoop (trim (toUpperCase ['m', 'm', 'm', 'c', 'm', 'x', 'c', 'i', 'x'])) 0) :=
  (romanToArabic_range_unreachable (.str ['m', 'm', 'm', 'c', 'm', 'x', 'c', 'i', 'x'])).2.1
    _ rfl (by decide) (by decide)


/-! ## Errors of arabicToRoman -/

theorem mem_dropWhile (p : Char → Bool) (c : Char) (hp : p c = false) :
    ∀ s : List Char, c ∈ s → c ∈ s.dropWhile p := by
  intro s
  induction s with
  | nil => intro h; exact h
  | cons x xs ih =>
    intro h
    by_cases hx : p x = true
    · rw [List.dropWhile_cons_of_pos hx]
      rcases List.mem_cons.mp h with h | h
      · rw [h, hx] at hp; cases hp
      · exact ih h
    · rw [List.dropWhile_cons_of_neg hx]
      exact h

theorem mem_trim (c : Char) (s : List Char) (hc : c ∈ s) (hw : isJsWhitespace c = false) :
    c ∈ trim s := by
  unfold trim
  rw [List.mem_reverse]
  apply mem_dropWhile _ _ hw
  rw [List.mem_reverse]
  exact mem_dropWhile _ _ hw _ hc

theorem arabicToRoman_invalidFormat_iff (v : JsValue) :
    arabicToRoman v = .error .InvalidFormat ↔
      ¬ (trim (toStringJs v) ≠ [] ∧ ∀ c ∈ trim (toStringJs v), isDigit c = true) := by
  constructor
  · rintro herr ⟨hne, hall⟩
    rw [arabicToRoman_digits v hne hall] at herr
    split_ifs at herr
    cases herr
  · intro h
    have ht : digitPattern.test (trim (toStringJs v)) = false := by
      rw [← Bool.not_eq_true, test_digitPattern]
      exact h
    simp [arabicToRoman, ht]

theorem arabicToRoman_of_nondigit (v : JsValue) (c : Char) (hc : c ∈ toStringJs v)
    (hd : isDigit c = false) (hw : isJsWhitespace c = false) :
    arabicToRoman v = .error .InvalidFormat := by
  rw [arabicToRoman_invalidFormat_iff]
  rintro ⟨_, hall⟩
  have := hall c (mem_trim c _ hc hw)
  rw [hd] at this
  cases this

theorem mem_scientific (ds : List Char) (e : Int) : 'e' ∈ scientific ds e := by
  unfold scientific
  split <;> simp [exponentPart]

theorem integerText_large (n : Nat) (hn : 1000000000000000000000 ≤ n) :
    'e' ∈ integerText n := by
  rw [integerText, if_neg (by omega)]
  exact mem_scientific _ _

theorem arabicToRoman_num_large (n : Int) (hn : 1000000000000000000000 ≤ n) :
    arabicToRoman (.num n) = .error .InvalidFormat := by
  obtain ⟨k, rfl⟩ := Int.eq_ofNat_of_zero_le (by omega : 0 ≤ n)
  exact arabicToRoman_of_nondigit _ 'e' (integerText_large k (by omega)) (by decide) (by decide)

theorem numberText_plain (s : Nat) (n : Int)
    (h : ((natToString s).length : Int) ≤ n ∧ n ≤ 21) :
    numberText s n = natToString s ++ List.replicate (n - (natToString s).length).toNat '0' := by
  simp only [numberText]
  rw [if_pos h]

theorem numberText_other (s : Nat) (n : Int)
    (h : ¬ (((natToString s).length : Int) ≤ n ∧ n ≤ 21)) :
    '.' ∈ numberText s n ∨ 'e' ∈ numberText s n := by
  simp only [numberText]
  rw [if_neg h]
  split_ifs
  · left; simp
  · left; simp
  · right; exact mem_scientific _ _

theorem arabicToRoman_finite_iff (negative : Bool) (s : Nat) (n : Int) :
    arabicToRoman (.number (.finite negative s n)) = .error .InvalidFormat ↔
      (negative = true ∨ ¬ (((natToString s).length : Int) ≤ n ∧ n ≤ 21)) := by
  constructor
  · intro herr
    by_contra hno
    have hneg : negative = false := by
      cases negative
      · rfl
      · exact absurd (Or.inl rfl) hno
    have hplain : ((natToString s).length : Int) ≤ n ∧ n ≤ 21 := by
      by_contra h
      exact hno (Or.inr h)
    subst hneg
    obtain ⟨hne, hall, _⟩ := natToString_spec s
    have htext : toStringJs (.number (.finite false s n)) =
        natToString s ++ List.replicate (n - (natToString s).length).toNat '0' := by
      show [] ++ numberText s n = _
      rw [List.nil_append, numberText_plain s n hplain]
    have hdig : ∀ c ∈ toStringJs (.number (.finite false s n)), isDigit c = true := by
      intro c hc
      rw [htext] at hc
      rcases List.mem_append.mp hc with hc | hc
      · exact hall c hc
      · rw [(List.mem_replicate.mp hc).2]; decide
    have htrim : trim (toStringJs (.number (.finite false s n))) =
        toStringJs (.number (.finite false s n)) :=
      trim_eq_self _ (fun c hc => not_whitespace_of_digit c (hdig c hc))
    rw [arabicToRoman_invalidFormat_iff, htrim] at herr
    apply herr
    refine ⟨?_, hdig⟩
    rw [htext]
    simp [hne]
  · rintro (hneg | hother)
    · subst hneg
      exact arabicToRoman_of_nondigit _ '-' (by simp [toStringJs, numberToString])
        (by decide) (by decide)
    · rcases numberText_other s n hother with h | h
      · exact arabicToRoman_of_nondigit _ '.'
          (by simp only [toStringJs, numberToString]; exact List.mem_append_right _ h)
          (by decide) (by decide)
      · exact arabicToRoman_of_nondigit _ 'e'
          (by simp only [toStringJs, numberToString]; exact List.mem_append_right _ h)
          (by decide) (by decide)

/-- C6. For every input, string or Number, `arabicToRoman` fails with `InvalidFormat` exactly
when the text of the input, trimmed, is not a non-empty sequence of decimal digits. So it
fails on the empty and on a whitespace-only string, on every negative number, on text with a
sign, a decimal point or an exponent, and on every input whose text contains a character that
is neither a digit nor whitespace, such as a Roman letter in either case. Among the Numbers it
fails on `NaN`, on the infinities, on every integer from `10^21` on (printed in exponent
form) and on every finite Number that is negative or is printed with a decimal point or an
exponent, and on no other. -/
theorem arabicToRoman_invalidFormat (v : JsValue) :
    (arabicToRoman v = .error .InvalidFormat ↔
      ¬ (trim (toStringJs v) ≠ [] ∧ ∀ c ∈ trim (toStringJs v), isDigit c = true)) ∧
    (∀ c ∈ toStringJs v, isDigit c = false → isJsWhitespace c = false →
      arabicToRoman v = .error .InvalidFormat) ∧
    (∀ c ∈ toStringJs v, isRomanChar c = true ∨ c ∈ ['i', 'v', 'x', 'l', 'c', 'd', 'm'] →
      arabicToRoman v = .error .InvalidFormat) ∧
    (∀ n : Int, n < 0 → arabicToRoman (.num n) = .error .InvalidFormat) ∧
    (∀ n : Int, 1000000000000000000000 ≤ n →
      arabicToRoman (.num n) = .error .InvalidFormat) ∧
    (∀ n : Nat, n < 1000000000000000000000 →
      arabicToRoman (.num (n : Int)) ≠ .error .InvalidFormat) ∧
    (∀ (negative : Bool) (s : Nat) (point : Int),
      arabicToRoman (.number (.finite negative s point)) = .error .InvalidFormat ↔
        (negative = true ∨ ¬ (((natToString s).length : Int) ≤ point ∧ point ≤ 21))) ∧
    arabicToRoman (.number .nan) = .error .InvalidFormat ∧
    (∀ negative, arabicToRoman (.number (.infinity negative)) = .error .InvalidFormat) ∧
    toStringJs (.number (.finite false 15 1)) = ['1', '.', '5'] ∧
    arabicToRoman (.number (.finite false 15 1)) = .error .InvalidFormat ∧
    toStringJs (.num 1000000000000000000000) = ['1', 'e', '+', '2', '1'] ∧
    arabicToRoman (.num 1000000000000000000000) = .error .InvalidFormat ∧
    arabicToRoman (.str []) = .error .InvalidFormat ∧
    arabicToRoman (.str [' ', Char.ofNat 9, Char.ofNat 10]) = .error .InvalidFormat ∧
    arabicToRoman (.str ['+', '5']) = .error .InvalidFormat ∧
    arabicToRoman (.str ['-', '5']) = .error .InvalidFormat ∧
    arabicToRoman (.str ['1', '.', '5']) = .error .InvalidFormat ∧
    arabicToRoman (.str ['1', 'e', '3']) = .error .InvalidFormat ∧
    arabicToRoman (.str ['X', 'I', 'V']) = .error .InvalidFormat := by
  refine ⟨arabicToRoman_invalidFormat_iff v, fun c hc hd hw => arabicToRoman_of_nondigit v c hc hd hw,
    ?_, ?_, arabicToRoman_num_large, ?_, arabicToRoman_finite_iff, by decide, ?_, by decide,
    by decide, by decide, by decide,
    by decide, by decide, by decide, by decide, by decide, by decide, by decide⟩
  · intro c hc hr
    have hcases : c ∈ ['I', 'V', 'X', 'L', 'C', 'D', 'M', 'i', 'v', 'x', 'l', 'c', 'd', 'm'] := by
      rcases hr with hr | hr
      · have := (isRomanChar_iff c).mp hr
        simp only [List.mem_cons, List.mem_singleton, List.not_mem_nil, or_false]
        tauto
      · simp only [List.mem_cons, List.mem_singleton, List.not_mem_nil, or_false] at hr ⊢
        tauto
    have hboth : ∀ x ∈ ['I', 'V', 'X', 'L', 'C', 'D', 'M', 'i', 'v', 'x', 'l', 'c', 'd', 'm'],
        isDigit x = false ∧ isJsWhitespace x = false := by decide
    exact arabicToRoman_of_nondigit v c hc (hboth c hcases).1 (hboth c hcases).2
  · intro n hn
    obtain ⟨k, rfl⟩ := Int.eq_negSucc_of_lt_zero hn
    exact arabicToRoman_of_nondigit _ '-' (by simp [toStringJs]) (by decide) (by decide)
  · intro n hn
    rw [arabicToRoman_num n hn]
    split_ifs <;> simp
  · intro negative
    cases negative <;> decide


theorem parseDigits_eq_decimalValue (ds : List Char) (hall : ∀ c ∈ ds, isDigit c = true) :
    ∀ acc, parseDigits ds acc = acc * 10 ^ ds.length + decimalValue ds := by
  induction ds with
  | nil => intro acc; simp [parseDigits, decimalValue]
  | cons c cs ih =>
    intro acc
    have hc : isDigit c = true := hall c (by simp)
    rw [parseDigits, if_pos hc, ih (fun d hd => hall d (List.mem_cons_of_mem _ hd))]
    simp only [decimalValue, List.length_cons, pow_succ]
    ring

/-- C7. For every input whose trimmed text is a non-empty sequence of decimal digits, of any
length and with any leading zeros, `arabicToRoman` fails with `OutOfRange` exactly when the
integer the digits denote is below 1 or above 3999, and otherwise returns the numeral of that
integer, the same as for the integer itself; `'0014'` yields `'XIV'` and `'0000'` fails with
`OutOfRange`. A Number below `10^21` that is a natural number is such an input; the Number
`1e21`, printed `1e+21`, is not, and fails with `InvalidFormat`. -/
theorem arabicToRoman_outOfRange (v : JsValue) (hne : trim (toStringJs v) ≠ [])
    (hall : ∀ c ∈ trim (toStringJs v), isDigit c = true) :
    (arabicToRoman v = .error .OutOfRange ↔
      decimalValue (trim (toStringJs v)) < 1 ∨ 3999 < decimalValue (trim (toStringJs v))) ∧
    (¬ (decimalValue (trim (toStringJs v)) < 1 ∨ 3999 < decimalValue (trim (toStringJs v))) →
      arabicToRoman v = .ok (some (canonical (decimalValue (trim (toStringJs v))))) ∧
      arabicToRoman v = arabicToRoman (.num (decimalValue (trim (toStringJs v)) : Int))) ∧
    arabicToRoman (.str ['0', '0', '1', '4']) = .ok (some ['X', 'I', 'V']) ∧
    arabicToRoman (.str ['0', '0', '0', '0']) = .error .OutOfRange ∧
    (∀ n : Nat, n < 1000000000000000000000 →
      (arabicToRoman (.num (n : Int)) = .error .OutOfRange ↔ n < 1 ∨ 3999 < n)) ∧
    arabicToRoman (.num 1000000000000000000000) = .error .InvalidFormat := by
  have hval : parseDigits (trim (toStringJs v)) 0 = decimalValue (trim (toStringJs v)) := by
    rw [parseDigits_eq_decimalValue _ hall]
    omega
  have hform := arabicToRoman_digits v hne hall
  rw [hval] at hform
  refine ⟨?_, ?_, by decide, by decide, ?_, by decide⟩
  · rw [hform]
    constructor
    · intro h
      by_contra hr
      rw [if_neg hr] at h
      cases h
    · intro hr
      rw [if_pos hr]
  · intro hr
    rw [hform, if_neg hr, arabicToRoman_num _ (by omega), if_neg hr]
    exact ⟨rfl, rfl⟩
  · intro n hn
    rw [arabicToRoman_num n hn]
    constructor
    · intro h
      by_contra hr
      rw [if_neg hr] at h
      cases h
    · intro hr
      rw [if_pos hr]

theorem arabicToRoman_outOfRange_witness :
    (arabicToRoman (.str [' ', '0', '0', '1', '4', ' ']) = .error .OutOfRange ↔
      decimalValue (trim (toStringJs (.str [' ', '0', '0', '1', '4', ' ']))) < 1 ∨
        3999 < decimalValue (trim (toStringJs (.str [' ', '0', '0', '1', '4', ' '])))) ∧
    decimalValue (trim (toStringJs (.str [' ', '0', '0', '1', '4', ' ']))) = 14 ∧
    arabicToRoman (.str [' ', '0', '0', '1', '4', ' ']) = .ok (some ['X', 'I', 'V']) :=
  ⟨(arabicToRoman_outOfRange (.str [' ', '0', '0', '1', '4', ' ']) (by decide) (by decide)).1,
    by decide, by decide⟩

/-- C8. Boundary values: `arabicToRoman` returns `'I'` for 1, `'IV'` for 4, `'IX'` for 9 and
`'MMMCMXCIX'` for 3999, and fails with `OutOfRange` (not `InvalidFormat`) for 0 and for
4000, for the number and for its decimal text alike. -/
theorem arabicToRoman_boundary :
    arabicToRoman (.num 1) = .ok (some ['I']) ∧
    arabicToRoman (.num 4) = .ok (some ['I', 'V']) ∧
    arabicToRoman (.num 9) = .ok (some ['I', 'X']) ∧
    arabicToRoman (.num 3999) = .ok (some ['M', 'M', 'M', 'C', 'M', 'X', 'C', 'I', 'X']) ∧
    arabicToRoman (.num 0) = .error .OutOfRange ∧
    arabicToRoman (.num 4000) = .error .OutOfRange ∧
    arabicToRoman (.str ['1']) = .ok (some ['I']) ∧
    arabicToRoman (.str ['3', '9', '9', '9']) =
      .ok (some ['M', 'M', 'M', 'C', 'M', 'X', 'C', 'I', 'X']) ∧
    arabicToRoman (.str ['0']) = .error .OutOfRange ∧
    arabicToRoman (.str ['4', '0', '0', '0']) = .error .OutOfRange := by
  refine ⟨by decide, by decide, by decide, by decide, by decide, by decide, by decide,
    by decide, by decide, by decide⟩


/-! ## Canonical form -/

theorem hasRun4_cons (x : Char) (s : List Char) (h : hasRun4 s = true) :
    hasRun4 (x :: s) = true := by
  match s, h with
  | a :: b :: c :: rest, h => simp [hasRun4, h]

theorem hasRun4_of_run (c : Char) (s : List Char) (h : List.replicate 4 c <:+: s) :
    hasRun4 s = true := by
  obtain ⟨pre, post, rfl⟩ := h
  induction pre with
  | nil => simp [List.replicate, hasRun4]
  | cons x pre ih => exact hasRun4_cons x _ ih

set_option maxRecDepth 1000000 in
theorem hasRun4_numeral_all :
    (List.range 4).all (fun m => (List.range 10).all (fun h => (List.range 10).all (fun t =>
      (List.range 10).all (fun u => !hasRun4 (numeral m h t u))))) = true := by
  decide!

theorem hasRun4_numeral (m h t u : Nat) (hm : m ≤ 3) (hh : h < 10) (ht : t < 10) (hu : u < 10) :
    hasRun4 (numeral m h t u) = false := by
  have hall := hasRun4_numeral_all
  simp only [List.all_eq_true, List.mem_range, Bool.not_eq_true'] at hall
  exact hall m (by omega) h hh t ht u hu

theorem no_run_numeral (m h t u : Nat) (hm : m ≤ 3) (hh : h < 10) (ht : t < 10) (hu : u < 10)
    (c : Char) (k : Nat) (hk : 4 ≤ k) : ¬ List.replicate k c <:+: numeral m h t u := by
  intro hin
  have h4 : List.replicate 4 c <:+: List.replicate k c := by
    refine ⟨[], List.replicate (k - 4) c, ?_⟩
    rw [List.nil_append, ← List.replicate_add]
    congr 1
    omega
  have := hasRun4_of_run c _ (h4.trans hin)
  rw [hasRun4_numeral m h t u hm hh ht hu] at this
  cases this

theorem count_fives_hundreds :
    ∀ d < 10, (digitGroup 'C' 'D' 'M' d).count 'D' ≤ 1 ∧ (digitGroup 'C' 'D' 'M' d).count 'L' = 0 ∧
      (digitGroup 'C' 'D' 'M' d).count 'V' = 0 := by
  decide

theorem count_fives_tens :
    ∀ d < 10, (digitGroup 'X' 'L' 'C' d).count 'D' = 0 ∧ (digitGroup 'X' 'L' 'C' d).count 'L' ≤ 1 ∧
      (digitGroup 'X' 'L' 'C' d).count 'V' = 0 := by
  decide

theorem count_fives_units :
    ∀ d < 10, (digitGroup 'I' 'V' 'X' d).count 'D' = 0 ∧ (digitGroup 'I' 'V' 'X' d).count 'L' = 0 ∧
      (digitGroup 'I' 'V' 'X' d).count 'V' ≤ 1 := by
  decide

theorem count_fives_numeral (m h t u : Nat) (hh : h < 10) (ht : t < 10) (hu : u < 10) :
    (numeral m h t u).count 'V' ≤ 1 ∧ (numeral m h t u).count 'L' ≤ 1 ∧
      (numeral m h t u).count 'D' ≤ 1 := by
  have hH := count_fives_hundreds h hh
  have hT := count_fives_tens t ht
  have hU := count_fives_units u hu
  have hMV : (List.replicate m 'M').count 'V' = 0 :=
    List.count_eq_zero.mpr (fun hmem => by rw [List.mem_replicate] at hmem; exact absurd hmem.2 (by decide))
  have hML : (List.replicate m 'M').count 'L' = 0 :=
    List.count_eq_zero.mpr (fun hmem => by rw [List.mem_replicate] at hmem; exact absurd hmem.2 (by decide))
  have hMD : (List.replicate m 'M').count 'D' = 0 :=
    List.count_eq_zero.mpr (fun hmem => by rw [List.mem_replicate] at hmem; exact absurd hmem.2 (by decide))
  simp only [numeral, List.count_append]
  omega

/-- C9. Canonical form: for every integer `n` with `1 ≤ n ≤ 3999` the numeral `arabicToRoman`
returns has no run of four or more consecutive equal symbols, has each of `V`, `L` and `D` at
most once, and contains none of `IIII`, `VIIII`, `XXXX`, `LXXXX`, `CCCC`, `DCCCC`. -/
theorem arabicToRoman_canonical_form (n : Nat) (h1 : 1 ≤ n) (h2 : n ≤ 3999) :
    ∃ r, arabicToRoman (.num (n : Int)) = .ok (some r) ∧
      (∀ (c : Char) (k : Nat), 4 ≤ k → ¬ List.replicate k c <:+: r) ∧
      r.count 'V' ≤ 1 ∧ r.count 'L' ≤ 1 ∧ r.count 'D' ≤ 1 ∧
      ¬ ['I', 'I', 'I', 'I'] <:+: r ∧ ¬ ['V', 'I', 'I', 'I', 'I'] <:+: r ∧
      ¬ ['X', 'X', 'X', 'X'] <:+: r ∧ ¬ ['L', 'X', 'X', 'X', 'X'] <:+: r ∧
      ¬ ['C', 'C', 'C', 'C'] <:+: r ∧ ¬ ['D', 'C', 'C', 'C', 'C'] <:+: r := by
  have hm : n / 1000 ≤ 3 := by omega
  have hh : n / 100 % 10 < 10 := Nat.mod_lt _ (by decide)
  have ht : n / 10 % 10 < 10 := Nat.mod_lt _ (by decide)
  have hu : n % 10 < 10 := Nat.mod_lt _ (by decide)
  have hrun := no_run_numeral _ _ _ _ hm hh ht hu
  have hcount := count_fives_numeral (n / 1000) _ _ _ hh ht hu
  refine ⟨canonical n, ?_, hrun, hcount.1, hcount.2.1, hcount.2.2, ?_, ?_, ?_, ?_, ?_, ?_⟩
  · rw [arabicToRoman_num _ (by omega), if_neg (by omega)]
  · exact hrun 'I' 4 (Nat.le_refl 4)
  · exact fun hin => hrun 'I' 4 (Nat.le_refl 4) (List.IsInfix.trans ⟨['V'], [], rfl⟩ hin)
  · exact hrun 'X' 4 (Nat.le_refl 4)
  · exact fun hin => hrun 'X' 4 (Nat.le_refl 4) (List.IsInfix.trans ⟨['L'], [], rfl⟩ hin)
  · exact hrun 'C' 4 (Nat.le_refl 4)
  · exact fun hin => hrun 'C' 4 (Nat.le_refl 4) (List.IsInfix.trans ⟨['D'], [], rfl⟩ hin)

theorem arabicToRoman_canonical_form_witness :
    arabicToRoman (.num ((3888 : Nat) : Int)) =
        .ok (some ['M', 'M', 'M', 'D', 'C', 'C', 'C', 'L', 'X', 'X', 'X', 'V', 'I', 'I', 'I']) ∧
      ∃ r, arabicToRoman (.num ((3888 : Nat) : Int)) = .ok (some r) ∧
        (∀ (c : Char) (k : Nat), 4 ≤ k → ¬ List.replicate k c <:+: r) ∧
        r.count 'V' ≤ 1 ∧ r.count 'L' ≤ 1 ∧ r.count 'D' ≤ 1 ∧
        ¬ ['I', 'I', 'I', 'I'] <:+: r ∧ ¬ ['V', 'I', 'I', 'I', 'I'] <:+: r ∧
        ¬ ['X', 'X', 'X', 'X'] <:+: r ∧ ¬ ['L', 'X', 'X', 'X', 'X'] <:+: r ∧
        ¬ ['C', 'C', 'C', 'C'] <:+: r ∧ ¬ ['D', 'C', 'C', 'C', 'C'] <:+: r :=
  ⟨by decide, arabicToRoman_canonical_form 3888 (by decide) (by decide)⟩

/-! ## The grammar check of romanToArabic -/

/-- C10. For every string whose normalised form (upper-cased, trimmed) is non-empty and has
only the letters `I,V,X,L,C,D,M`, `romanToArabic` succeeds exactly when the normalised form
matches `validPattern` as a whole, and fails with `InvalidGrammar` exactly when it does not.
The grammar check precedes decoding: `'IIX'` would decode to 10 and is rejected. -/
theorem romanToArabic_grammar (s : List Char) (hne : trim (toUpperCase s) ≠ [])
    (hch : ∀ c ∈ trim (toUpperCase s), isRomanChar c = true) :
    ((∃ n, romanToArabic (.str s) = .ok n) ↔ validPattern.Lang (trim (toUpperCase s))) ∧
    (romanToArabic (.str s) = .error .InvalidGrammar ↔
      ¬ validPattern.Lang (trim (toUpperCase s))) ∧
    (validPattern.Lang (trim (toUpperCase s)) ↔
      ∃ m h t u, m ≤ 3 ∧ h < 10 ∧ t < 10 ∧ u < 10 ∧ trim (toUpperCase s) = numeral m h t u) ∧
    decodeLoop ['I', 'I', 'X'] 0 = 10 ∧
    romanToArabic (.str ['I', 'I', 'X']) = .error .InvalidGrammar := by
  have hs : s ≠ [] := by
    rintro rfl
    exact hne rfl
  have hc : charPattern.test (trim (toUpperCase s)) = true := (test_charPattern _).mpr ⟨hne, hch⟩
  have hform := romanToArabic_str s hs
  simp only [hc, Bool.true_eq_false, if_false] at hform
  refine ⟨?_, ?_, lang_validPattern _, by decide, by decide⟩
  · rw [← Re.test_iff, hform]
    by_cases hv : validPattern.test (trim (toUpperCase s)) = true
    · simp [hv]
    · simp [hv]
  · rw [← Re.test_iff, hform]
    by_cases hv : validPattern.test (trim (toUpperCase s)) = true
    · simp [hv]
    · simp [hv]

theorem romanToArabic_grammar_witness :
    ((∃ n, romanToArabic (.str [' ', 'i', 'i', 'x']) = .ok n) ↔
        validPattern.Lang (trim (toUpperCase [' ', 'i', 'i', 'x']))) ∧
      (romanToArabic (.str [' ', 'i', 'i', 'x']) = .error .InvalidGrammar ↔
        ¬ validPattern.Lang (trim (toUpperCase [' ', 'i', 'i', 'x']))) ∧
      romanToArabic (.str [' ', 'i', 'i', 'x']) = .error .InvalidGrammar :=
  ⟨(romanToArabic_grammar [' ', 'i', 'i', 'x'] (by decide) (by decide)).1,
    (romanToArabic_grammar [' ', 'i', 'i', 'x'] (by decide) (by decide)).2.1, by decide⟩


/-! ## Strings romanToArabic rejects -/

theorem outOfOrder_sound (s : List Char) (h : OutOfOrder s) : outOfOrder s = true := by
  obtain ⟨pre, x, mid, y, post, hs, hlt, hpair⟩ := h
  subst hs
  induction pre with
  | nil =>
    simp only [List.nil_append, outOfOrder, Bool.or_eq_true]
    left
    cases mid with
    | nil =>
      have hnot : ¬ [x, y] ∈ subtractivePairs := fun hmem => hpair ⟨rfl, hmem⟩
      have hcont : subtractivePairs.contains [x, y] = false := by
        rw [Bool.eq_false_iff]
        intro hc
        exact hnot (List.elem_iff.mp hc)
      simp only [List.nil_append, greaterAfter, Bool.or_eq_true, Bool.and_eq_true,
        decide_eq_true_eq, hcont, Bool.not_false, and_true]
      exact Or.inl hlt
    | cons m mid2 =>
      simp only [List.cons_append, greaterAfter, Bool.or_eq_true, List.any_eq_true,
        decide_eq_true_eq]
      exact Or.inr ⟨y, by simp, hlt⟩
  | cons p pre ih =>
    simp only [List.cons_append, outOfOrder, Bool.or_eq_true]
    exact Or.inr ih

theorem outOfOrder_of_repeatedPair (s : List Char) (h : RepeatedPair s) : OutOfOrder s := by
  obtain ⟨p, hp, a, b, c, hs⟩ := h
  have hform : ∃ x y, p = [x, y] ∧ (valores x).getD 0 < (valores y).getD 0 := by
    simp only [subtractivePairs, List.mem_cons, List.mem_singleton, List.not_mem_nil,
      or_false] at hp
    rcases hp with h | h | h | h | h | h <;> subst h <;> exact ⟨_, _, rfl, by decide⟩
  obtain ⟨x, y, rfl, hlt⟩ := hform
  refine ⟨a, x, y :: (b ++ [x]), y, c, ?_, hlt, ?_⟩
  · rw [hs]; simp
  · rintro ⟨hnil, _⟩
    cases hnil

set_option maxRecDepth 1000000 in
theorem outOfOrder_numeral_all :
    (List.range 4).all (fun m => (List.range 10).all (fun h => (List.range 10).all (fun t =>
      (List.range 10).all (fun u => !outOfOrder (numeral m h t u))))) = true := by
  decide!

theorem outOfOrder_numeral (m h t u : Nat) (hm : m ≤ 3) (hh : h < 10) (ht : t < 10)
    (hu : u < 10) : outOfOrder (numeral m h t u) = false := by
  have hall := outOfOrder_numeral_all
  simp only [List.all_eq_true, List.mem_range, Bool.not_eq_true'] at hall
  exact hall m (by omega) h hh t ht u hu

theorem romanToArabic_roman_string (s : List Char) (hne : s ≠ [])
    (hch : ∀ c ∈ s, isRomanChar c = true) :
    romanToArabic (.str s) =
      if validPattern.test s = false then .error .InvalidGrammar else .ok (decodeLoop s 0) := by
  have hnorm : trim (toUpperCase s) = s := by
    rw [toUpperCase_roman s hch]
    exact trim_eq_self s (fun c hc => not_whitespace_of_roman c (hch c hc))
  have hc : charPattern.test s = true := (test_charPattern s).mpr ⟨hne, hch⟩
  rw [romanToArabic_str s hne, hnorm]
  simp [hc]

/-- C11. The function `romanToArabic` rejects `'IIII'`, `'VX'`, `'IIV'` and `'MMMM'` with
`InvalidGrammar` and `'ABC'` with `InvalidCharacters`; every non-empty string over the seven
letters that has four consecutive equal symbols, or a subtractive pair occurring twice, or a
symbol standing before one of strictly greater value other than in a subtractive pair, is
rejected with `InvalidGrammar`. -/
theorem romanToArabic_rejects :
    romanToArabic (.str ['I', 'I', 'I', 'I']) = .error .InvalidGrammar ∧
    romanToArabic (.str ['V', 'X']) = .error .InvalidGrammar ∧
    romanToArabic (.str ['I', 'I', 'V']) = .error .InvalidGrammar ∧
    romanToArabic (.str ['M', 'M', 'M', 'M']) = .error .InvalidGrammar ∧
    romanToArabic (.str ['A', 'B', 'C']) = .error .InvalidCharacters ∧
    ∀ s : List Char, s ≠ [] → (∀ c ∈ s, isRomanChar c = true) →
      ((∃ c, List.replicate 4 c <:+: s) ∨ RepeatedPair s ∨ OutOfOrder s) →
      romanToArabic (.str s) = .error .InvalidGrammar := by
  refine ⟨by decide, by decide, by decide, by decide, by decide, ?_⟩
  intro s hne hch hbad
  rw [romanToArabic_roman_string s hne hch]
  by_cases hv : validPattern.test s = true
  · exfalso
    obtain ⟨m, h, t, u, hm, hh, ht, hu, rfl⟩ := (test_validPattern s).mp hv
    rcases hbad with ⟨c, hrun⟩ | hrep | hord
    · have := hasRun4_of_run c _ hrun
      rw [hasRun4_numeral m h t u hm hh ht hu] at this
      cases this
    · have := outOfOrder_sound _ (outOfOrder_of_repeatedPair _ hrep)
      rw [outOfOrder_numeral m h t u hm hh ht hu] at this
      cases this
    · have := outOfOrder_sound _ hord
      rw [outOfOrder_numeral m h t u hm hh ht hu] at this
      cases this
  · simp [hv]

theorem romanToArabic_rejects_witness :
    romanToArabic (.str ['X', 'X', 'X', 'X', 'I']) = .error .InvalidGrammar ∧
    romanToArabic (.str ['M', 'I', 'X', 'I', 'X']) = .error .InvalidGrammar ∧
    romanToArabic (.str ['I', 'L']) = .error .InvalidGrammar :=
  ⟨romanToArabic_rejects.2.2.2.2.2 ['X', 'X', 'X', 'X', 'I'] (by decide) (by decide)
      (Or.inl ⟨'X', [], ['I'], rfl⟩),
    romanToArabic_rejects.2.2.2.2.2 ['M', 'I', 'X', 'I', 'X'] (by decide) (by decide)
      (Or.inr (Or.inl ⟨['I', 'X'], by decide, ['M'], [], [], rfl⟩)),
    romanToArabic_rejects.2.2.2.2.2 ['I', 'L'] (by decide) (by decide)
      (Or.inr (Or.inr ⟨[], 'I', [], 'L', [], rfl, by decide, by decide⟩))⟩


/-! ## Input and character checks of romanToArabic -/

theorem toUpperChar_whitespace (c : Char) (h : isJsWhitespace c = true) :
    toUpperChar c = [c] := by
  have hn : c.toNat = 9 ∨ c.toNat = 10 ∨ c.toNat = 11 ∨ c.toNat = 12 ∨ c.toNat = 13 ∨
      c.toNat = 32 ∨ c.toNat = 160 ∨ c.toNat = 5760 ∨ (8192 ≤ c.toNat ∧ c.toNat ≤ 8202) ∨
      c.toNat = 8232 ∨ c.toNat = 8233 ∨ c.toNat = 8239 ∨ c.toNat = 8287 ∨ c.toNat = 12288 ∨
      c.toNat = 65279 := by
    unfold isJsWhitespace at h
    simp only [Bool.or_eq_true, Bool.and_eq_true, beq_iff_eq, decide_eq_true_eq] at h
    omega
  unfold toUpperChar
  generalize c.toNat = k at hn ⊢
  show (if 97 ≤ k ∧ k ≤ 122 then _ else _) = [c]
  repeat rw [if_neg (by omega)]

theorem toUpperCase_whitespace (s : List Char) (h : ∀ c ∈ s, isJsWhitespace c = true) :
    toUpperCase s = s := by
  induction s with
  | nil => rfl
  | cons c s ih =>
    have hc := toUpperChar_whitespace c (h c (by simp))
    have hs := ih (fun d hd => h d (List.mem_cons_of_mem _ hd))
    simp only [toUpperCase, List.flatMap_cons] at hs ⊢
    rw [hc, hs]
    rfl

theorem dropWhile_eq_nil (p : Char → Bool) (s : List Char) (h : ∀ c ∈ s, p c = true) :
    s.dropWhile p = [] := by
  induction s with
  | nil => rfl
  | cons c s ih =>
    rw [List.dropWhile_cons_of_pos (h c (by simp))]
    exact ih (fun d hd => h d (List.mem_cons_of_mem _ hd))

theorem trim_whitespace (s : List Char) (h : ∀ c ∈ s, isJsWhitespace c = true) :
    trim s = [] := by
  unfold trim
  rw [dropWhile_eq_nil _ s h]
  rfl

theorem romanToArabic_invalidCharacters_iff (s : List Char) (hs : s ≠ []) :
    romanToArabic (.str s) = .error .InvalidCharacters ↔
      (trim (toUpperCase s) = [] ∨ ∃ c ∈ trim (toUpperCase s), isRomanChar c = false) := by
  have hcases : charPattern.test (trim (toUpperCase s)) = false ↔
      (trim (toUpperCase s) = [] ∨ ∃ c ∈ trim (toUpperCase s), isRomanChar c = false) := by
    rw [← Bool.not_eq_true, test_charPattern]
    constructor
    · intro h
      by_cases hnil : trim (toUpperCase s) = []
      · exact Or.inl hnil
      · right
        by_contra hno
        apply h
        refine ⟨hnil, fun c hc => ?_⟩
        by_contra hcr
        exact hno ⟨c, hc, by simpa using hcr⟩
    · rintro (hnil | ⟨c, hc, hcr⟩) ⟨hne, hall⟩
      · exact hne hnil
      · rw [hall c hc] at hcr
        cases hcr
  rw [romanToArabic_str s hs, ← hcases]
  by_cases hc : charPattern.test (trim (toUpperCase s)) = true
  · by_cases hv : validPattern.test (trim (toUpperCase s)) = true
    · simp [hc, hv]
    · simp [hc, hv]
  · simp [hc]

/-- C12. For every non-empty string, `romanToArabic` fails with `InvalidCharacters` exactly
when the string, upper-cased and trimmed, is empty or has a character outside
`I,V,X,L,C,D,M`; such an input never yields `InvalidGrammar`, and a whitespace-only string
fails with `InvalidCharacters`, not `InvalidInput`. -/
theorem romanToArabic_invalidCharacters (s : List Char) (hs : s ≠ []) :
    (romanToArabic (.str s) = .error .InvalidCharacters ↔
      (trim (toUpperCase s) = [] ∨ ∃ c ∈ trim (toUpperCase s), isRomanChar c = false)) ∧
    ((trim (toUpperCase s) = [] ∨ ∃ c ∈ trim (toUpperCase s), isRomanChar c = false) →
      romanToArabic (.str s) ≠ .error .InvalidGrammar) ∧
    ((∀ c ∈ s, isJsWhitespace c = true) →
      romanToArabic (.str s) = .error .InvalidCharacters ∧
      romanToArabic (.str s) ≠ .error .InvalidInput) ∧
    romanToArabic (.str [' ', ' ']) = .error .InvalidCharacters ∧
    romanToArabic (.str ['X', '1']) = .error .InvalidCharacters := by
  have hiff := romanToArabic_invalidCharacters_iff s hs
  refine ⟨hiff, ?_, ?_, by decide, by decide⟩
  · intro h
    rw [hiff.mpr h]
    simp
  · intro hws
    have hnil : trim (toUpperCase s) = [] := by
      rw [toUpperCase_whitespace s hws]
      exact trim_whitespace s hws
    rw [hiff.mpr (Or.inl hnil)]
    simp

theorem romanToArabic_invalidCharacters_witness :
    (romanToArabic (.str [' ', Char.ofNat 9]) = .error .InvalidCharacters ∧
      romanToArabic (.str [' ', Char.ofNat 9]) ≠ .error .InvalidInput) ∧
    (romanToArabic (.str ['x', 'i', 'z']) = .error .InvalidCharacters ↔
      (trim (toUpperCase ['x', 'i', 'z']) = [] ∨
        ∃ c ∈ trim (toUpperCase ['x', 'i', 'z']), isRomanChar c = false)) :=
  ⟨(romanToArabic_invalidCharacters [' ', Char.ofNat 9] (by decide)).2.2.1 (by decide),
    (romanToArabic_invalidCharacters ['x', 'i', 'z'] (by decide)).1⟩

/-- C13. The function `romanToArabic` fails with `InvalidInput` on `undefined`, `null`, every
boolean, number, array or object and the empty string, and on nothing else: the check comes
first, so none of these inputs yields another error or a value. -/
theorem romanToArabic_invalidInput (v : JsValue) :
    (romanToArabic v = .error .InvalidInput ↔ ∀ s, s ≠ [] → v ≠ .str s) ∧
    romanToArabic .undefined = .error .InvalidInput ∧
    romanToArabic .null = .error .InvalidInput ∧
    (∀ b, romanToArabic (.bool b) = .error .InvalidInput) ∧
    (∀ n, romanToArabic (.num n) = .error .InvalidInput) ∧
    (∀ x, romanToArabic (.number x) = .error .InvalidInput) ∧
    (∀ text, romanToArabic (.obj text) = .error .InvalidInput) ∧
    romanToArabic (.str []) = .error .InvalidInput := by
  refine ⟨⟨?_, romanToArabic_not_str v⟩, rfl, rfl, fun _ => rfl, fun _ => rfl, fun _ => rfl,
    fun _ => rfl, rfl⟩
  rintro herr s hs rfl
  rw [romanToArabic_str s hs] at herr
  split_ifs at herr <;> cases herr


/-! ## Case and whitespace tolerance of romanToArabic -/

theorem toUpperChar_sameLetter (x y : Char) (hxy : SameLetter x y)
    (hy : isRomanChar y = true) : toUpperChar x = [y] := by
  rcases hxy with rfl | hlow
  · exact toUpperChar_roman x hy
  · have hx : x = Char.ofNat (y.toNat + 32) := by rw [← hlow, Char.ofNat_toNat]
    subst hx
    rcases (isRomanChar_iff y).mp hy with h | h | h | h | h | h | h <;> subst h <;> decide

theorem toUpperCase_append (a b : List Char) :
    toUpperCase (a ++ b) = toUpperCase a ++ toUpperCase b := by
  simp [toUpperCase]

theorem toUpperCase_sameLetter (body r : List Char) (hbody : List.Forall₂ SameLetter body r)
    (hr : ∀ c ∈ r, isRomanChar c = true) : toUpperCase body = r := by
  induction hbody with
  | nil => rfl
  | @cons x y xs ys hxy _ ih =>
    have hx := toUpperChar_sameLetter x y hxy (hr y (by simp))
    have hrest := ih (fun c hc => hr c (List.mem_cons_of_mem _ hc))
    simp only [toUpperCase, List.flatMap_cons] at hrest ⊢
    rw [hx, hrest]
    rfl

theorem trim_padded (lead r trail : List Char) (hlead : ∀ c ∈ lead, isJsWhitespace c = true)
    (htrail : ∀ c ∈ trail, isJsWhitespace c = true)
    (hr : ∀ c ∈ r, isJsWhitespace c = false) : trim (lead ++ (r ++ trail)) = r := by
  unfold trim
  rw [List.dropWhile_append_of_pos hlead]
  cases r with
  | nil =>
    rw [List.nil_append, dropWhile_eq_nil _ trail htrail]
    rfl
  | cons x r =>
    rw [List.cons_append, List.dropWhile_cons_of_neg (by simp [hr x (by simp)]),
      ← List.cons_append, List.reverse_append,
      List.dropWhile_append_of_pos (fun c hc => htrail c (by simpa using hc)),
      dropWhile_eq_self _ (x :: r).reverse (fun c hc => hr c (List.mem_reverse.mp hc))]
    simp

theorem romanToArabic_of_normalised (s : List Char) (n : Nat) (h1 : 1 ≤ n) (h2 : n ≤ 3999)
    (hnorm : trim (toUpperCase s) = canonical n) : romanToArabic (.str s) = .ok (n : Int) := by
  have hm : n / 1000 ≤ 3 := by omega
  have hh : n / 100 % 10 < 10 := Nat.mod_lt _ (by decide)
  have ht : n / 10 % 10 < 10 := Nat.mod_lt _ (by decide)
  have hu : n % 10 < 10 := Nat.mod_lt _ (by decide)
  rw [romanToArabic_ok_iff]
  refine ⟨s, rfl, _, _, _, _, hm, hh, ht, hu, hnorm, ?_, by omega⟩
  rw [hnorm]
  exact numeral_ne_nil _ _ _ _ hm hh ht hu (by omega)

/-- C14. For every `n` in `[1, 3999]`, every string made of the canonical numeral of `n` with
any of its letters in lower case, between any leading and trailing whitespace, decodes to `n`;
`romanToArabic('xiv')` and `romanToArabic(' XIV ')` are 14. -/
theorem romanToArabic_case_whitespace (n : Nat) (h1 : 1 ≤ n) (h2 : n ≤ 3999)
    (lead body trail : List Char) (hlead : ∀ c ∈ lead, isJsWhitespace c = true)
    (htrail : ∀ c ∈ trail, isJsWhitespace c = true)
    (hbody : List.Forall₂ SameLetter body (canonical n)) :
    romanToArabic (.str (lead ++ (body ++ trail))) = .ok (n : Int) ∧
    romanToArabic (.str ['x', 'i', 'v']) = .ok 14 ∧
    romanToArabic (.str [' ', 'X', 'I', 'V', ' ']) = .ok 14 := by
  refine ⟨?_, by decide, by decide⟩
  have hroman : ∀ c ∈ canonical n, isRomanChar c = true := isRomanChar_of_mem_numeral _ _ _ _
  apply romanToArabic_of_normalised _ n h1 h2
  rw [toUpperCase_append, toUpperCase_append, toUpperCase_whitespace lead hlead,
    toUpperCase_whitespace trail htrail, toUpperCase_sameLetter body _ hbody hroman]
  exact trim_padded lead _ trail hlead htrail
    (fun c hc => not_whitespace_of_roman c (hroman c hc))

theorem romanToArabic_case_whitespace_witness :
    romanToArabic (.str ([Char.ofNat 9, ' '] ++ (['m', 'C', 'm', 'x', 'c', 'I', 'v'] ++
      [' ', Char.ofNat 10]))) = .ok ((1994 : Nat) : Int) :=
  (romanToArabic_case_whitespace 1994 (by decide) (by decide) [Char.ofNat 9, ' ']
    ['m', 'C', 'm', 'x', 'c', 'I', 'v'] [' ', Char.ofNat 10] (by decide) (by decide)
    (by
      show List.Forall₂ SameLetter _ ['M', 'C', 'M', 'X', 'C', 'I', 'V']
      refine .cons (Or.inr (by decide)) (.cons (Or.inl rfl) (.cons (Or.inr (by decide))
        (.cons (Or.inr (by decide)) (.cons (Or.inr (by decide)) (.cons (Or.inl rfl)
          (.cons (Or.inr (by decide)) .nil)))))))).1


/-! ## The batch handler -/

/-- C15. Batch independence: for every non-empty list of values `POST /api/batch` answers 200
with `total` the length of the list and one result per value, in order; each result is the
result of the batch of that value alone; a value whose conversion throws gives an entry with
status 'error', the value itself and the message; for `['XIV', 14, 'not-a-numeral', 4000]` the
first two entries succeed (arabic 14, roman `'XIV'`) and the last two fail. -/
theorem postBatch_independent (values : List JsValue) (hne : values ≠ [])
    (timestamp : List Char) :
    Server.postBatch (some values) timestamp =
      ⟨200, .results values.length (values.map Server.batchEntry) timestamp⟩ ∧
    (values.map Server.batchEntry).length = values.length ∧
    (∀ i : Nat, (values.map Server.batchEntry)[i]? = (values[i]?).map Server.batchEntry) ∧
    (∀ v ∈ values, Server.postBatch (some [v]) timestamp =
      ⟨200, .results 1 [Server.batchEntry v] timestamp⟩) ∧
    (∀ v ∈ values, ∀ m, Server.convertEntry v = .error m →
      Server.batchEntry v = .error v m) ∧
    Server.postBatch (some [.str ['X', 'I', 'V'], .num 14,
        .str ['n', 'o', 't', '-', 'a', '-', 'n', 'u', 'm', 'e', 'r', 'a', 'l'], .num 4000])
        timestamp =
      ⟨200, .results 4
        [.romanToArabic ['X', 'I', 'V'] ['X', 'I', 'V'] 14,
         .arabicToRoman (some 14) (some 14) (some ['X', 'I', 'V']),
         .error (.str ['n', 'o', 't', '-', 'a', '-', 'n', 'u', 'm', 'e', 'r', 'a', 'l'])
           (.conversion .InvalidFormat),
         .error (.num 4000) (.conversion .OutOfRange)] timestamp⟩ := by
  refine ⟨?_, List.length_map _ _, fun i => by simp, fun v _ => rfl, ?_, ?_⟩
  · cases values with
    | nil => exact absurd rfl hne
    | cons v vs => rfl
  · intro v _ m hm
    simp only [Server.batchEntry, hm]
  · have h1 : Server.batchEntry (.str ['X', 'I', 'V']) =
        .romanToArabic ['X', 'I', 'V'] ['X', 'I', 'V'] 14 := by decide
    have h2 : Server.batchEntry (.num 14) =
        .arabicToRoman (some 14) (some 14) (some ['X', 'I', 'V']) := by decide
    have h3 : Server.batchEntry
        (.str ['n', 'o', 't', '-', 'a', '-', 'n', 'u', 'm', 'e', 'r', 'a', 'l']) =
        .error (.str ['n', 'o', 't', '-', 'a', '-', 'n', 'u', 'm', 'e', 'r', 'a', 'l'])
          (.conversion .InvalidFormat) := by decide
    have h4 : Server.batchEntry (.num 4000) = .error (.num 4000) (.conversion .OutOfRange) := by
      decide
    simp only [Server.postBatch, List.map, h1, h2, h3, h4, List.length]

theorem postBatch_independent_witness :
    Server.postBatch (some [.str ['I', 'I', 'I', 'I'], .str ['9']]) [] =
      ⟨200, .results 2 [.error (.str ['I', 'I', 'I', 'I']) (.conversion .InvalidGrammar),
        .arabicToRoman (some 9) (some 9) (some ['I', 'X'])] []⟩ :=
  (postBatch_independent [.str ['I', 'I', 'I', 'I'], .str ['9']] (by decide) []).1.trans
    (by decide)


/-! ## The auto-detecting conversion -/

theorem esRomano_whitespace (s : List Char) (hne : s ≠ [])
    (hws : ∀ c ∈ s, isJsWhitespace c = true) : esRomano (.str s) = false := by
  cases s with
  | nil => exact absurd rfl hne
  | cons c cs =>
    have hc : isJsWhitespace c = true := hws c (by simp)
    have hnot : isRomanCharAnyCase c = false := by
      by_contra hr
      have hr2 : isRomanCharAnyCase c = true := by simpa using hr
      have hmem : c ∈ ['I', 'V', 'X', 'L', 'C', 'D', 'M', 'i', 'v', 'x', 'l', 'c', 'd', 'm'] := by
        simp only [isRomanCharAnyCase, isRomanChar, Bool.or_eq_true, beq_iff_eq] at hr2
        simp only [List.mem_cons, List.mem_singleton, List.not_mem_nil, or_false]
        tauto
      have hall : ∀ x ∈ ['I', 'V', 'X', 'L', 'C', 'D', 'M', 'i', 'v', 'x', 'l', 'c', 'd', 'm'],
          isJsWhitespace x = false := by decide
      rw [hall c hmem] at hc
      cases hc
    rw [esRomano, ← Bool.not_eq_true, Re.test_iff, dispatchPattern, lang_plus_cls]
    rintro ⟨_, hall⟩
    rw [hall c (by simp)] at hnot
    cases hnot

theorem arabicToRoman_whitespace (s : List Char) (hws : ∀ c ∈ s, isJsWhitespace c = true) :
    arabicToRoman (.str s) = .error .InvalidFormat := by
  rw [arabicToRoman_invalidFormat_iff]
  rintro ⟨hne, _⟩
  exact hne (trim_whitespace s hws)

/-- C16, the claim refuted at a whitespace-only value: `POST /api/convert` with the value
`' '` does not answer 'value is required'; the value is dispatched to `arabicToRoman`, whose
`InvalidFormat` error is the response, in `src/server.js` and in `src/api/convert.js`. -/
theorem postConvert_whitespace_counterexample :
    valueMissing (.str [' ']) = false ∧
    Server.postConvert (.str [' ']) [] ≠ ⟨400, .required .valueRequired⟩ ∧
    Server.postConvert (.str [' ']) [] =
      ⟨400, .failure (.conversion .InvalidFormat) (.str [' '])⟩ ∧
    Convert.handler .POST (.str [' ']) [] =
      ⟨400, .failure (.conversion .InvalidFormat) (.str [' '])⟩ := by
  decide

/-- C16, amended. In `POST /api/convert` an absent, `null` or empty-string value is rejected
before dispatch with the 'value is required' response, whatever the converters would do; a
non-empty whitespace-only value passes that guard, is dispatched to `arabicToRoman` and is
answered with its `InvalidFormat` error. Both hold in `src/server.js` and in
`src/api/convert.js`. -/
theorem postConvert_missing_value (s : List Char) (hne : s ≠ [])
    (hws : ∀ c ∈ s, isJsWhitespace c = true) (timestamp : List Char) :
    (∀ v, valueMissing v = true ↔ (v = .undefined ∨ v = .null ∨ v = .str [])) ∧
    (∀ v, valueMissing v = true →
      Server.postConvert v timestamp = ⟨400, .required .valueRequired⟩ ∧
      Convert.handler .POST v timestamp = ⟨400, .required .valueRequired⟩) ∧
    valueMissing (.str s) = false ∧
    esRomano (.str s) = false ∧
    Server.convertEntry (.str s) = Server.a2rEntry (.str s) ∧
    Server.postConvert (.str s) timestamp =
      ⟨400, .failure (.conversion .InvalidFormat) (.str s)⟩ ∧
    Convert.handler .POST (.str s) timestamp =
      ⟨400, .failure (.conversion .InvalidFormat) (.str s)⟩ := by
  have hm : valueMissing (.str s) = false := by
    cases s with
    | nil => exact absurd rfl hne
    | cons c cs => rfl
  have hr := esRomano_whitespace s hne hws
  have ha := arabicToRoman_whitespace s hws
  have ha2 : Convert.arabicToRoman (.str s) = .error .InvalidFormat := ha
  refine ⟨?_, ?_, hm, hr, ?_, ?_, ?_⟩
  · intro v
    cases v with
    | str t => cases t <;> simp [valueMissing]
    | _ => simp [valueMissing]
  · intro v hv
    simp [Server.postConvert, Convert.handler, hv]
  · simp [Server.convertEntry, hr]
  · simp [Server.postConvert, hm, Server.convertEntry, hr, Server.a2rEntry, ha]
  · simp [Convert.handler, hm, Convert.convertEntry, hr, ha2]

theorem postConvert_missing_value_witness :
    Server.postConvert (.str [' ', Char.ofNat 9]) [] =
      ⟨400, .failure (.conversion .InvalidFormat) (.str [' ', Char.ofNat 9])⟩ :=
  (postConvert_missing_value [' ', Char.ofNat 9] (by decide) (by decide) []).2.2.2.2.2.1


/-! ## Unsupported methods -/

/-- C17, evaluated. The per-route handlers under `src/api` answer a method other than their
own and `OPTIONS` with 405 and `{status: 'error', message}`. The Express application of
`src/server.js` has no such answer: a request with a method its route does not take (other
than `OPTIONS`, which `cors` answers) reaches the final handler and gets 404 with the
'Endpoint no encontrado' body, for instance `POST /api/a2r` and `DELETE /api/batch`. -/
theorem unsupported_method_responses (method : Method) (v : JsValue)
    (values : Option (List JsValue)) (timestamp : List Char) :
    (method ≠ .GET → method ≠ .OPTIONS →
      R2A.handler method v timestamp = ⟨405, .message .methodNotAllowedGet⟩ ∧
      A2R.handler method v timestamp = ⟨405, .message .methodNotAllowedGet⟩) ∧
    (method ≠ .POST → method ≠ .OPTIONS →
      Convert.handler method v timestamp = ⟨405, .message .methodNotAllowedPost⟩) ∧
    (method ≠ .GET → method ≠ .HEAD → method ≠ .OPTIONS →
      Server.app ⟨method, .r2a, v, v, v, values⟩ timestamp = ⟨404, .notFound⟩ ∧
      Server.app ⟨method, .a2r, v, v, v, values⟩ timestamp = ⟨404, .notFound⟩) ∧
    (method ≠ .POST → method ≠ .OPTIONS →
      Server.app ⟨method, .convert, v, v, v, values⟩ timestamp = ⟨404, .notFound⟩ ∧
      Server.app ⟨method, .batch, v, v, v, values⟩ timestamp = ⟨404, .notFound⟩) ∧
    Server.app ⟨.POST, .a2r, v, v, v, values⟩ timestamp = ⟨404, .notFound⟩ ∧
    Server.app ⟨.DELETE, .batch, v, v, v, values⟩ timestamp = ⟨404, .notFound⟩ ∧
    (Server.app ⟨.POST, .a2r, v, v, v, values⟩ timestamp).status ≠ 405 := by
  refine ⟨?_, ?_, ?_, ?_, rfl, rfl, by simp [Server.app]⟩
  · intro h1 h2
    simp [R2A.handler, A2R.handler, h1, h2]
  · intro h1 h2
    simp [Convert.handler, h1, h2]
  · intro h1 h2 h3
    cases method <;> simp_all [Server.app]
  · intro h1 h2
    cases method <;> simp_all [Server.app]


/-! ## The copies of the converters agree -/

theorem decodeLoop_r2a_eq (s : List Char) : ∀ total, R2A.decodeLoop s total = decodeLoop s total := by
  induction s with
  | nil => intro total; rfl
  | cons c rest ih =>
    intro total
    simp only [R2A.decodeLoop, decodeLoop, ih]
    rfl

theorem decodeLoop_convert_eq (s : List Char) :
    ∀ total, Convert.decodeLoop s total = decodeLoop s total := by
  induction s with
  | nil => intro total; rfl
  | cons c rest ih =>
    intro total
    simp only [Convert.decodeLoop, decodeLoop, ih]
    rfl

theorem romanToArabic_r2a_eq (v : JsValue) : R2A.romanToArabic v = romanToArabic v := by
  cases v with
  | str s =>
    cases s with
    | nil => rfl
    | cons c cs =>
      simp only [R2A.romanToArabic, romanToArabic, decodeLoop_r2a_eq, charPattern,
        validPattern]
  | _ => rfl

theorem romanToArabic_convert_eq (v : JsValue) :
    Convert.romanToArabic v = romanToArabic v := by
  cases v with
  | str s =>
    cases s with
    | nil => rfl
    | cons c cs =>
      simp only [Convert.romanToArabic, romanToArabic, decodeLoop_convert_eq, charPattern,
        validPattern]
  | _ => rfl

theorem arabicToRoman_a2r_eq (v : JsValue) : A2R.arabicToRoman v = arabicToRoman v := rfl

theorem arabicToRoman_convert_eq (v : JsValue) : Convert.arabicToRoman v = arabicToRoman v :=
  rfl

theorem convertEntry_convert_eq (v : JsValue) :
    Convert.convertEntry v = Server.convertEntry v := by
  simp only [Convert.convertEntry, Server.convertEntry, Server.r2aEntry, Server.a2rEntry,
    romanToArabic_convert_eq, arabicToRoman_convert_eq]

theorem handler_r2a_get (roman : JsValue) (timestamp : List Char) :
    R2A.handler .GET roman timestamp = Server.getR2a roman timestamp := by
  simp only [R2A.handler, Server.getR2a, Server.r2aEntry, romanToArabic_r2a_eq]
  by_cases hf : isFalsy roman = true
  · simp [hf]
  · simp only [hf]
    cases romanToArabic roman with
    | error e => simp
    | ok a => cases toUpperCaseOf roman <;> simp

/-- C18. The copies of the converters are the same functions: `arabicToRoman` of
`src/api/a2r.js` and of `src/api/convert.js` return what `arabicToRoman` of `src/server.js`
returns, value or error, on every input, and likewise `romanToArabic` of `src/api/r2a.js` and
of `src/api/convert.js`. -/
theorem converters_agree (v : JsValue) :
    A2R.arabicToRoman v = arabicToRoman v ∧
    Convert.arabicToRoman v = arabicToRoman v ∧
    R2A.romanToArabic v = romanToArabic v ∧
    Convert.romanToArabic v = romanToArabic v :=
  ⟨arabicToRoman_a2r_eq v, arabicToRoman_convert_eq v, romanToArabic_r2a_eq v,
    romanToArabic_convert_eq v⟩


/-! ## The dispatch heuristic -/

theorem isRomanCharAnyCase_iff (c : Char) :
    isRomanCharAnyCase c = true ↔
      c ∈ ['I', 'V', 'X', 'L', 'C', 'D', 'M', 'i', 'v', 'x', 'l', 'c', 'd', 'm'] := by
  simp only [isRomanCharAnyCase, isRomanChar, Bool.or_eq_true, beq_iff_eq, List.mem_cons,
    List.mem_singleton, List.not_mem_nil, or_false]
  tauto

theorem toUpperChar_anyCase (c : Char) (h : isRomanCharAnyCase c = true) :
    ∃ y, toUpperChar c = [y] ∧ isRomanChar y = true := by
  have hall : ∀ x ∈ ['I', 'V', 'X', 'L', 'C', 'D', 'M', 'i', 'v', 'x', 'l', 'c', 'd', 'm'],
      (toUpperChar x).length = 1 ∧ (toUpperChar x).all isRomanChar = true := by decide
  obtain ⟨hlen, hrom⟩ := hall c ((isRomanCharAnyCase_iff c).mp h)
  match hu : toUpperChar c, hlen, hrom with
  | [y], _, hrom => exact ⟨y, rfl, by simpa using hrom⟩

theorem toUpperCase_anyCase (s : List Char) (h : ∀ c ∈ s, isRomanCharAnyCase c = true) :
    (∀ c ∈ toUpperCase s, isRomanChar c = true) ∧ (s ≠ [] → toUpperCase s ≠ []) := by
  induction s with
  | nil => exact ⟨fun c hc => by simp [toUpperCase] at hc, fun hne => absurd rfl hne⟩
  | cons x xs ih =>
    obtain ⟨y, hy, hyr⟩ := toUpperChar_anyCase x (h x (by simp))
    have hrest := (ih (fun c hc => h c (List.mem_cons_of_mem _ hc))).1
    have hcons : toUpperCase (x :: xs) = y :: toUpperCase xs := by
      simp [toUpperCase, hy]
    rw [hcons]
    refine ⟨fun c hc => ?_, fun _ => by simp⟩
    rcases List.mem_cons.mp hc with hc | hc
    · exact hc ▸ hyr
    · exact hrest c hc

theorem romanToArabic_of_esRomano (v : JsValue) (h : esRomano v = true) :
    (∃ n, romanToArabic v = .ok n) ∨ romanToArabic v = .error .InvalidGrammar := by
  cases v with
  | str s =>
    simp only [esRomano] at h
    rw [Re.test_iff, dispatchPattern, lang_plus_cls] at h
    obtain ⟨hne, hall⟩ := h
    obtain ⟨hrom, hne2⟩ := toUpperCase_anyCase s hall
    have htrim : trim (toUpperCase s) = toUpperCase s :=
      trim_eq_self _ (fun c hc => not_whitespace_of_roman c (hrom c hc))
    have hc : charPattern.test (trim (toUpperCase s)) = true := by
      rw [htrim]
      exact (test_charPattern _).mpr ⟨hne2 hne, hrom⟩
    rw [romanToArabic_str s hne]
    by_cases hv : validPattern.test (trim (toUpperCase s)) = true
    · left
      exact ⟨decodeLoop (trim (toUpperCase s)) 0, by simp [hc, hv]⟩
    · right
      simp [hc, hv]
  | _ => simp [esRomano] at h

/-- C19, the claim refuted at a digit string: `'14'` is a string that is not purely Roman
letters; it is dispatched to `arabicToRoman` and converted, and does not fail with
`InvalidFormat`. -/
theorem dispatch_digits_counterexample :
    esRomano (.str ['1', '4']) = false ∧
    arabicToRoman (.str ['1', '4']) = .ok (some ['X', 'I', 'V']) ∧
    arabicToRoman (.str ['1', '4']) ≠ .error .InvalidFormat ∧
    Server.convertEntry (.str ['1', '4']) =
      .ok (.arabicToRoman (some 14) (some 14) (some ['X', 'I', 'V'])) := by
  decide

/-- C19, amended. Under the dispatch of convert and batch, a value routed to `romanToArabic`
succeeds or fails with `InvalidGrammar`, never with another error; a string that is not
purely Roman letters is routed to `arabicToRoman`, where it fails with `InvalidFormat` exactly
when its trimmed text is not a non-empty digit string, in particular whenever it has a Roman
letter in either case, as `' XIV '` and `'ABC'` do. -/
theorem dispatch_outcomes (v : JsValue) :
    Convert.convertEntry v = Server.convertEntry v ∧
    (esRomano v = true ↔ ∃ s, v = .str s ∧ s ≠ [] ∧ ∀ c ∈ s, isRomanCharAnyCase c = true) ∧
    (esRomano v = true →
      Server.convertEntry v = Server.r2aEntry v ∧
      ((∃ n, romanToArabic v = .ok n) ∨ romanToArabic v = .error .InvalidGrammar) ∧
      romanToArabic v ≠ .error .InvalidInput ∧
      romanToArabic v ≠ .error .InvalidCharacters ∧
      romanToArabic v ≠ .error .RomanOutOfRange) ∧
    (esRomano v = false →
      Server.convertEntry v = Server.a2rEntry v ∧
      (arabicToRoman v = .error .InvalidFormat ↔
        ¬ (trim (toStringJs v) ≠ [] ∧ ∀ c ∈ trim (toStringJs v), isDigit c = true)) ∧
      ((∃ c ∈ toStringJs v, isRomanCharAnyCase c = true) →
        arabicToRoman v = .error .InvalidFormat)) ∧
    esRomano (.str [' ', 'X', 'I', 'V', ' ']) = false ∧
    arabicToRoman (.str [' ', 'X', 'I', 'V', ' ']) = .error .InvalidFormat ∧
    esRomano (.str ['A', 'B', 'C']) = false ∧
    arabicToRoman (.str ['A', 'B', 'C']) = .error .InvalidFormat := by
  refine ⟨convertEntry_convert_eq v, ?_, ?_, ?_, by decide, by decide, by decide, by decide⟩
  · cases v with
    | str s =>
      simp only [esRomano]
      rw [Re.test_iff, dispatchPattern, lang_plus_cls]
      constructor
      · intro h
        exact ⟨s, rfl, h.1, h.2⟩
      · rintro ⟨t, ht, hne, hall⟩
        cases ht
        exact ⟨hne, hall⟩
    | _ => simp [esRomano]
  · intro h
    have hout := romanToArabic_of_esRomano v h
    refine ⟨by simp [Server.convertEntry, h], hout, ?_, ?_, ?_⟩ <;>
    · rcases hout with ⟨n, hn⟩ | herr
      · rw [hn]; simp
      · rw [herr]; simp
  · intro h
    refine ⟨by simp [Server.convertEntry, h], arabicToRoman_invalidFormat_iff v, ?_⟩
    rintro ⟨c, hc, hr⟩
    have hboth : ∀ x ∈ ['I', 'V', 'X', 'L', 'C', 'D', 'M', 'i', 'v', 'x', 'l', 'c', 'd', 'm'],
        isDigit x = false ∧ isJsWhitespace x = false := by decide
    have hx := hboth c ((isRomanCharAnyCase_iff c).mp hr)
    exact arabicToRoman_of_nondigit v c hc hx.1 hx.2

theorem dispatch_outcomes_witness :
    (Server.convertEntry (.str ['i', 'i', 'x']) = Server.r2aEntry (.str ['i', 'i', 'x']) ∧
      romanToArabic (.str ['i', 'i', 'x']) = .error .InvalidGrammar) ∧
    arabicToRoman (.str ['X', ' ', 'I']) = .error .InvalidFormat :=
  ⟨⟨((dispatch_outcomes (.str ['i', 'i', 'x'])).2.2.1 (by decide)).1, by decide⟩,
    ((dispatch_outcomes (.str ['X', ' ', 'I'])).2.2.2.1 (by decide)).2.2
      ⟨'X', by decide, by decide⟩⟩


/-! ## The fields of a Roman-to-Arabic response -/

theorem arabicToRoman_of_romanToArabic (v : JsValue) (n : Int) (hv : romanToArabic v = .ok n) :
    ∃ s, v = .str s ∧ arabicToRoman (.num n) = .ok (some (trim (toUpperCase s))) := by
  obtain ⟨s, rfl, m, h, t, u, hm, hh, ht, hu, hs, hne, hn⟩ := (romanToArabic_ok_iff v n).mp hv
  have hpos : 0 < 1000 * m + 100 * h + 10 * t + u := by
    rcases Nat.eq_zero_or_pos (1000 * m + 100 * h + 10 * t + u) with h0 | h0
    · have : m = 0 ∧ h = 0 ∧ t = 0 ∧ u = 0 := by omega
      obtain ⟨rfl, rfl, rfl, rfl⟩ := this
      exact absurd hs hne
    · exact h0
  have hcast : n = ((1000 * m + 100 * h + 10 * t + u : Nat) : Int) := by
    rw [hn]; push_cast; ring
  refine ⟨s, rfl, ?_⟩
  rw [hcast, arabicToRoman_num _ (by omega), if_neg (by omega), canonical_digits m h t u hh ht hu, hs]

theorem r2aEntry_fields (s : List Char) (input roman : List Char) (arabic : Int)
    (h : Server.r2aEntry (.str s) = .ok (.romanToArabic input roman arabic)) :
    input = toUpperCase s ∧ roman = toUpperCase s ∧ romanToArabic (.str s) = .ok arabic := by
  simp only [Server.r2aEntry, toUpperCaseOf] at h
  cases hr : romanToArabic (.str s) with
  | error e => rw [hr] at h; simp at h
  | ok a =>
    rw [hr] at h
    simp only [Except.ok.injEq, Entry.romanToArabic.injEq] at h
    exact ⟨h.1.symm, h.2.1.symm, by rw [h.2.2]⟩

/-- C20, evaluated. `GET /api/r2a` with `roman` = `' XIV '` succeeds with `arabic` 14 and with
`' XIV '`, whitespace included, in `roman` and `input`, while `arabicToRoman(14)` is `'XIV'`:
the handler upper-cases the echoed text and does not trim it. The fields are the canonical
numeral of `arabic` whenever the upper-cased input has no surrounding whitespace, and always
in the roman branch of convert and batch, whose values have no whitespace. -/
theorem r2a_response_fields (timestamp : List Char) :
    Server.getR2a (.str [' ', 'X', 'I', 'V', ' ']) timestamp =
      ⟨200, .result (.romanToArabic [' ', 'X', 'I', 'V', ' '] [' ', 'X', 'I', 'V', ' '] 14)
        timestamp⟩ ∧
    R2A.handler .GET (.str [' ', 'X', 'I', 'V', ' ']) timestamp =
      ⟨200, .result (.romanToArabic [' ', 'X', 'I', 'V', ' '] [' ', 'X', 'I', 'V', ' '] 14)
        timestamp⟩ ∧
    arabicToRoman (.num 14) = .ok (some ['X', 'I', 'V']) ∧
    (∀ s input roman arabic,
      Server.r2aEntry (.str s) = .ok (.romanToArabic input roman arabic) →
      input = toUpperCase s ∧ roman = toUpperCase s ∧
      arabicToRoman (.num arabic) = .ok (some (trim (toUpperCase s)))) ∧
    (∀ v input roman arabic, esRomano v = true →
      Server.convertEntry v = .ok (.romanToArabic input roman arabic) →
      input = roman ∧ arabicToRoman (.num arabic) = .ok (some roman)) := by
  have hget : Server.getR2a (.str [' ', 'X', 'I', 'V', ' ']) timestamp =
      ⟨200, .result (.romanToArabic [' ', 'X', 'I', 'V', ' '] [' ', 'X', 'I', 'V', ' '] 14)
        timestamp⟩ := by
    have he : Server.r2aEntry (.str [' ', 'X', 'I', 'V', ' ']) =
        .ok (.romanToArabic [' ', 'X', 'I', 'V', ' '] [' ', 'X', 'I', 'V', ' '] 14) := by decide
    simp only [Server.getR2a, he]
    rfl
  refine ⟨hget, by rw [handler_r2a_get, hget], by decide, ?_, ?_⟩
  · intro s input roman arabic h
    obtain ⟨hi, hr, hok⟩ := r2aEntry_fields s input roman arabic h
    obtain ⟨t, ht, ha⟩ := arabicToRoman_of_romanToArabic _ _ hok
    cases ht
    exact ⟨hi, hr, ha⟩
  · intro v input roman arabic hes h
    cases v with
    | str s =>
      simp only [Server.convertEntry, hes, if_true] at h
      obtain ⟨hi, hr, hok⟩ := r2aEntry_fields s input roman arabic h
      obtain ⟨t, ht, ha⟩ := arabicToRoman_of_romanToArabic _ _ hok
      cases ht
      simp only [esRomano] at hes
      rw [Re.test_iff, dispatchPattern, lang_plus_cls] at hes
      have hrom := (toUpperCase_anyCase s hes.2).1
      have htrim : trim (toUpperCase s) = toUpperCase s :=
        trim_eq_self _ (fun c hc => not_whitespace_of_roman c (hrom c hc))
      rw [htrim] at ha
      exact ⟨by rw [hi, hr], by rw [hr]; exact ha⟩
    | _ => simp [esRomano] at hes

end ConversorNumerosRomanos
